import Mathlib

/-!
# Verification of the DSA-HW01 sparse-matrix repository

The repository contains two divergent implementations of a `SparseMatrix`:

* `src/Sparse_matrix/code/main.py` — nested dictionaries `{row: {col: value}}`,
  zero-suppressing `set_element` with bounds checking, custom exception classes,
  an `nnz` counter, sparse-aware `multiply`, `transpose`.
  Modelled below in namespace `MainPy`.
* `src/Sparse_matrix/code/sparse_matrix.py` — a single dictionary keyed by the
  pair `(row, col)`, unconditional `set_element`, bounds-checked `get_element`
  raising `IndexError`, `ValueError` on dimension mismatches, dense triple-loop
  `multiply`.  Modelled below in namespace `PairM`.

Python dictionaries are modelled as insertion-ordered association lists:
`d[k] = v` updates the value in place when the key is present and appends
otherwise, `del d[k]` removes the binding, `d.get(k, default)` is lookup with a
default.  Python `int` is modelled by `Int` (arbitrary precision, no overflow).
A method that can raise is modelled in `Except`; the modelled exception kinds
mirror the exception classes / messages used by the source.
-/

namespace SparseSpec

/-- Python dict lookup `d.get(k)`: first binding of the key, if any. -/
def alookup {α β : Type} [DecidableEq α] : List (α × β) → α → Option β
  | [], _ => none
  | (k, v) :: rest, a => if k = a then some v else alookup rest a

/-- Python dict update `d[k] = v`: replace in place if the key is present,
append otherwise. -/
def aset {α β : Type} [DecidableEq α] : List (α × β) → α → β → List (α × β)
  | [], a, b => [(a, b)]
  | (k, v) :: rest, a, b =>
    if k = a then (k, b) :: rest else (k, v) :: aset rest a b

/-- Python dict deletion `del d[k]`: drop the first binding of the key. -/
def aerase {α β : Type} [DecidableEq α] : List (α × β) → α → List (α × β)
  | [], _ => []
  | (k, v) :: rest, a => if k = a then rest else (k, v) :: aerase rest a

/-- Python `k in d`. -/
def hasKey {α β : Type} [DecidableEq α] (l : List (α × β)) (k : α) : Bool :=
  (alookup l k).isSome

/-- Each key occurs at most once — the invariant every Python dict satisfies. -/
def nodupKeys {α β : Type} [DecidableEq α] : List (α × β) → Prop
  | [] => True
  | (k, _) :: rest => alookup rest k = none ∧ nodupKeys rest

instance nodupKeysDec {α β : Type} [DecidableEq α] :
    (l : List (α × β)) → Decidable (nodupKeys l)
  | [] => .isTrue trivial
  | (k, _) :: rest =>
    match h : alookup rest k with
    | some _ => .isFalse fun hc => by rw [hc.1] at h; exact Option.noConfusion h
    | none =>
      match nodupKeysDec rest with
      | .isTrue hr => .isTrue ⟨h, hr⟩
      | .isFalse hr => .isFalse fun hc => hr hc.2

/-- Lookup in a list of `(row, col, value)` triples by position. -/
def lookupE : List (Int × Int × Int) → Int → Int → Option Int
  | [], _, _ => none
  | e :: rest, r, c =>
    if e.1 = r ∧ e.2.1 = c then some e.2.2 else lookupE rest r c

/-- Pairwise-distinct positions in a list of `(row, col, value)` triples. -/
def edistinct : List (Int × Int × Int) → Prop
  | [] => True
  | e :: rest => lookupE rest e.1 e.2.1 = none ∧ edistinct rest

instance edistinctDec : (l : List (Int × Int × Int)) → Decidable (edistinct l)
  | [] => .isTrue trivial
  | e :: rest =>
    match h : lookupE rest e.1 e.2.1 with
    | some _ => .isFalse fun hc => by rw [hc.1] at h; exact Option.noConfusion h
    | none =>
      match edistinctDec rest with
      | .isTrue hr => .isTrue ⟨h, hr⟩
      | .isFalse hr => .isFalse fun hc => hr hc.2

/-- Value stored in an inner (column ↦ value) dictionary, defaulting to 0. -/
def rget (rw : List (Int × Int)) (c : Int) : Int :=
  (alookup rw c).getD 0

namespace MainPy

/-- The matrix of `main.py`: nested association list `{row: {col: value}}`
together with the declared dimensions and the `nnz` counter, exactly the
attributes assigned in `SparseMatrix.__init__`. -/
structure SparseMatrix where
  data : List (Int × List (Int × Int))
  rows : Int
  cols : Int
  nnz : Int
deriving DecidableEq

/-- The two custom exception classes of `main.py`:
`MatrixDimensionError` and `MatrixIndexError`. -/
inductive Err where
  | dimensionMismatch : Err
  | indexOutOfBounds : Err
deriving DecidableEq

/-- `SparseMatrix(rows=r, cols=c)`: `__init__` with no source file just records
the dimensions — it performs no validation whatsoever. -/
def mk (rows cols : Int) : SparseMatrix :=
  { data := [], rows := rows, cols := cols, nnz := 0 }

/-- The bounds condition `0 <= row < self.rows and 0 <= col < self.cols`
tested by `set_element`. -/
abbrev inBounds (m : SparseMatrix) (row col : Int) : Prop :=
  0 ≤ row ∧ row < m.rows ∧ 0 ≤ col ∧ col < m.cols

/-- `get_element`: `self.data.get(row, {}).get(col, 0)` — no bounds check,
total, returns 0 for any absent position. -/
def get_element (m : SparseMatrix) (row col : Int) : Int :=
  (alookup ((alookup m.data row).getD []) col).getD 0

/-- The binding physically stored at a position (`none` when the position is
absent from the nested dictionary). -/
def stored (m : SparseMatrix) (row col : Int) : Option Int :=
  match alookup m.data row with
  | none => none
  | some rowMap => alookup rowMap col

/-- `set_element`: raises `MatrixIndexError` out of bounds; a non-zero value is
stored via `self.data.setdefault(row, {})[col] = value` and `nnz` is
incremented (also on overwrite); value `0` deletes an existing binding,
dropping the row dictionary when it becomes empty. -/
def set_element (m : SparseMatrix) (row col value : Int) :
    Except Err SparseMatrix :=
  if inBounds m row col then
    if value ≠ 0 then
      .ok { m with
            data := aset m.data row
              (aset ((alookup m.data row).getD []) col value),
            nnz := m.nnz + 1 }
    else
      match alookup m.data row with
      | none => .ok m
      | some rowMap =>
        match alookup rowMap col with
        | none => .ok m
        | some _ =>
          let rowMap2 := aerase rowMap col
          .ok { m with
                data := if rowMap2.isEmpty then aerase m.data row
                        else aset m.data row rowMap2,
                nnz := m.nnz - 1 }
  else .error .indexOutOfBounds

/-- Flatten the nested dictionary to the sequence of `(row, col, value)`
triples in iteration order, i.e. the order of the loop
`for row, cols in self.data.items(): for col, value in cols.items()`. -/
def entryList : List (Int × List (Int × Int)) → List (Int × Int × Int)
  | [] => []
  | (r, rw) :: rest => rw.map (fun cv => (r, cv)) ++ entryList rest

/-- Run a sequence of `set_element` calls, stopping at the first exception —
the shape of every write loop in `main.py`. -/
def setList : SparseMatrix → List (Int × Int × Int) → Except Err SparseMatrix
  | m, [] => .ok m
  | m, e :: rest =>
    match set_element m e.1 e.2.1 e.2.2 with
    | .ok m1 => setList m1 rest
    | .error err => .error err

/-- The second loop of `_elementwise_operation`:
`result.set_element(row, col, operation(result.get_element(row, col), value))`
for each entry of `other`. -/
def applyOther (op : Int → Int → Int) :
    SparseMatrix → List (Int × Int × Int) → Except Err SparseMatrix
  | m, [] => .ok m
  | m, e :: rest =>
    match set_element m e.1 e.2.1 (op (get_element m e.1 e.2.1) e.2.2) with
    | .ok m1 => applyOther op m1 rest
    | .error err => .error err

/-- `_elementwise_operation`: dimension guard, then copy `self`'s entries into
a fresh result, then fold `other`'s entries in with `operation`. -/
def elementwise_operation (self other : SparseMatrix) (op : Int → Int → Int) :
    Except Err SparseMatrix :=
  if (self.rows, self.cols) ≠ (other.rows, other.cols) then
    .error .dimensionMismatch
  else
    match setList (mk self.rows self.cols) (entryList self.data) with
    | .ok r1 => applyOther op r1 (entryList other.data)
    | .error err => .error err

/-- `add`: `self._elementwise_operation(other, lambda x, y: x + y)`. -/
def add (self other : SparseMatrix) : Except Err SparseMatrix :=
  elementwise_operation self other (fun x y => x + y)

/-- `subtract`: `self._elementwise_operation(other, lambda x, y: x - y)`. -/
def subtract (self other : SparseMatrix) : Except Err SparseMatrix :=
  elementwise_operation self other (fun x y => x - y)

/-- The inner accumulation of `multiply`:
`row_data[col] = row_data.get(col, 0) + v1 * v2` over one row of `other`. -/
def accRow (v1 : Int) : List (Int × Int) → List (Int × Int) → List (Int × Int)
  | rd, [] => rd
  | rd, cv :: rest =>
    accRow v1 (aset rd cv.1 ((alookup rd cv.1).getD 0 + v1 * cv.2)) rest

/-- Build `row_data` for one row of `self`: for each `(k, v1)` of the row,
if `k` is a row of `other`, accumulate its entries. -/
def buildRowData (other : SparseMatrix) :
    List (Int × Int) → List (Int × Int) → List (Int × Int)
  | rd, [] => rd
  | rd, kv :: rest =>
    match alookup other.data kv.1 with
    | none => buildRowData other rd rest
    | some orow => buildRowData other (accRow kv.2 rd orow) rest

/-- `for col, value in row_data.items(): result.set_element(row, col, value)`. -/
def writeRow (row : Int) :
    SparseMatrix → List (Int × Int) → Except Err SparseMatrix
  | acc, [] => .ok acc
  | acc, cv :: rest =>
    match set_element acc row cv.1 cv.2 with
    | .ok a1 => writeRow row a1 rest
    | .error err => .error err

/-- The outer loop of `multiply` over the rows of `self`. -/
def multiplyRows (other : SparseMatrix) :
    SparseMatrix → List (Int × List (Int × Int)) → Except Err SparseMatrix
  | acc, [] => .ok acc
  | acc, rr :: rest =>
    match writeRow rr.1 acc (buildRowData other [] rr.2) with
    | .ok a1 => multiplyRows other a1 rest
    | .error err => .error err

/-- `multiply`: compatibility guard, then the dictionary-based row-by-row
accumulation of `main.py`. -/
def multiply (self other : SparseMatrix) : Except Err SparseMatrix :=
  if self.cols ≠ other.rows then .error .dimensionMismatch
  else multiplyRows other (mk self.rows other.cols) self.data

/-- The entry triples written by `transpose`: `(col, row, value)` for every
`(row, col, value)` of `self`, in iteration order. -/
def swapEntries (l : List (Int × Int × Int)) : List (Int × Int × Int) :=
  l.map fun e => (e.2.1, e.1, e.2.2)

/-- `transpose`: fresh matrix with swapped dimensions, populated by
`result.set_element(col, row, value)` over all entries of `self`. -/
def transpose (self : SparseMatrix) : Except Err SparseMatrix :=
  setList (mk self.cols self.rows) (swapEntries (entryList self.data))

/-- Well-formedness of a reachable `main.py` matrix: dictionary keys are
unique, row keys are in `[0, rows)`, and every inner dictionary is non-empty
with unique keys in `[0, cols)` and non-zero values. -/
def wf (m : SparseMatrix) : Prop :=
  nodupKeys m.data ∧
  ∀ rr ∈ m.data, 0 ≤ rr.1 ∧ rr.1 < m.rows ∧
    (nodupKeys rr.2 ∧ ∀ cv ∈ rr.2, 0 ≤ cv.1 ∧ cv.1 < m.cols ∧ cv.2 ≠ 0) ∧
    rr.2 ≠ []

instance wfDec (m : SparseMatrix) : Decidable (wf m) := by
  unfold wf
  exact inferInstance

/-- The mathematical (r, c) entry of the product: the sum over `k` of
`A.get_element(r, k) * B.get_element(k, c)`. -/
def dotSum (A B : SparseMatrix) (r c : Int) : Int :=
  Finset.sum (Finset.range A.cols.toNat)
    fun k => get_element A r (k : Int) * get_element B (k : Int) c

/-- Number of positions physically stored in the nested dictionary. -/
def entryCount : List (Int × List (Int × Int)) → Nat
  | [] => 0
  | rr :: rest => rr.2.length + entryCount rest

end MainPy

namespace PairM

/-- The matrix of `sparse_matrix.py`: a single association list keyed by the
pair `(row, col)` plus the declared dimensions. -/
structure SparseMatrix where
  rows : Int
  cols : Int
  data : List ((Int × Int) × Int)
deriving DecidableEq

/-- The exceptions raised by `sparse_matrix.py`'s core methods:
`ValueError(msg)` and `IndexError(msg)`. -/
inductive Err where
  | valueError (msg : String) : Err
  | indexError (msg : String) : Err
deriving DecidableEq

/-- `__init__(rows, cols, file_path=None)` without a file: requires both
dimensions, otherwise `ValueError`; records them without any validation.
(The `file_path` branch drives the external loader and is out of core scope.) -/
def mkDims (rows? cols? : Option Int) : Except Err SparseMatrix :=
  match rows?, cols? with
  | some r, some c => .ok { rows := r, cols := c, data := [] }
  | _, _ => .error (.valueError "Provide either a file path or matrix dimensions.")

/-- The bounds condition tested by `get_element`. -/
abbrev inBounds (m : SparseMatrix) (row col : Int) : Prop :=
  0 ≤ row ∧ row < m.rows ∧ 0 ≤ col ∧ col < m.cols

/-- `set_element`: `self.data[(row, col)] = value` — no bounds check, no
zero-suppression, never raises. -/
def set_element (m : SparseMatrix) (row col value : Int) : SparseMatrix :=
  { m with data := aset m.data (row, col) value }

/-- `get_element`: returns `self.data.get((row, col), 0)` in bounds, raises
`IndexError` otherwise. -/
def get_element (m : SparseMatrix) (row col : Int) : Except Err Int :=
  if inBounds m row col then .ok ((alookup m.data (row, col)).getD 0)
  else .error (.indexError "Index out of bounds.")

/-- The loop of `add`: for each stored `(row, col) ↦ value` of `self`,
`result.set_element(row, col, value + other.get_element(row, col))`.
Positions stored only in `other` are never visited. -/
def addLoop (other : SparseMatrix) :
    SparseMatrix → List ((Int × Int) × Int) → Except Err SparseMatrix
  | res, [] => .ok res
  | res, e :: rest =>
    match get_element other e.1.1 e.1.2 with
    | .ok o => addLoop other (set_element res e.1.1 e.1.2 (e.2 + o)) rest
    | .error err => .error err

/-- `add`: dimension guard raising `ValueError`, then the loop over
`self.data` only. -/
def add (self other : SparseMatrix) : Except Err SparseMatrix :=
  if self.rows ≠ other.rows ∨ self.cols ≠ other.cols then
    .error (.valueError "Matrices must have the same dimensions for addition.")
  else addLoop other { rows := self.rows, cols := self.cols, data := [] } self.data

/-- The loop of `subtract` (same shape as `addLoop`, combinator `-`). -/
def subLoop (other : SparseMatrix) :
    SparseMatrix → List ((Int × Int) × Int) → Except Err SparseMatrix
  | res, [] => .ok res
  | res, e :: rest =>
    match get_element other e.1.1 e.1.2 with
    | .ok o => subLoop other (set_element res e.1.1 e.1.2 (e.2 - o)) rest
    | .error err => .error err

/-- `subtract`: dimension guard raising `ValueError`, then the loop over
`self.data` only. -/
def subtract (self other : SparseMatrix) : Except Err SparseMatrix :=
  if self.rows ≠ other.rows ∨ self.cols ≠ other.cols then
    .error (.valueError "Matrices must have the same dimensions for subtraction.")
  else subLoop other { rows := self.rows, cols := self.cols, data := [] } self.data

/-- The generator `sum(self.get_element(i, k) * other.get_element(k, j) for k
in range(self.cols))`, threaded through the possible `IndexError`s. -/
def sumK (self other : SparseMatrix) (i j : Int) :
    List Nat → Int → Except Err Int
  | [], s => .ok s
  | k :: rest, s =>
    match get_element self i (k : Int) with
    | .error err => .error err
    | .ok a =>
      match get_element other (k : Int) j with
      | .error err => .error err
      | .ok b => sumK self other i j rest (s + a * b)

/-- The inner loop of `multiply` over `j in range(other.cols)`:
store `sum_val` at `(i, j)` only when it is non-zero. -/
def colLoop (self other : SparseMatrix) (i : Int) :
    SparseMatrix → List Nat → Except Err SparseMatrix
  | res, [] => .ok res
  | res, j :: rest =>
    match sumK self other i (j : Int) (List.range self.cols.toNat) 0 with
    | .error err => .error err
    | .ok sum_val =>
      colLoop self other i
        (if sum_val ≠ 0 then set_element res i (j : Int) sum_val else res) rest

/-- The outer loop of `multiply` over `i in range(self.rows)`. -/
def rowLoop (self other : SparseMatrix) :
    SparseMatrix → List Nat → Except Err SparseMatrix
  | res, [] => .ok res
  | res, i :: rest =>
    match colLoop self other (i : Int) res (List.range other.cols.toNat) with
    | .ok r1 => rowLoop self other r1 rest
    | .error err => .error err

/-- `multiply`: compatibility guard raising `ValueError`, then the dense
triple loop of `sparse_matrix.py`. -/
def multiply (self other : SparseMatrix) : Except Err SparseMatrix :=
  if self.cols ≠ other.rows then
    .error (.valueError
      "Matrix multiplication requires first matrix's columns to match second matrix's rows.")
  else rowLoop self other { rows := self.rows, cols := other.cols, data := [] }
    (List.range self.rows.toNat)

/-- The raw stored value at a position, default 0 — what `get_element`
returns once its bounds check has passed. -/
def getRaw (m : SparseMatrix) (r c : Int) : Int :=
  (alookup m.data (r, c)).getD 0

/-- The mathematical (r, c) entry of the product for the pair-keyed
implementation. -/
def dotSumP (A B : SparseMatrix) (r c : Int) : Int :=
  Finset.sum (Finset.range A.cols.toNat)
    fun k => getRaw A r (k : Int) * getRaw B (k : Int) c

/-- Entries of a reachable pair-keyed matrix: unique keys, in bounds. -/
def entriesOk (m : SparseMatrix) : Prop :=
  nodupKeys m.data ∧
  ∀ e ∈ m.data, 0 ≤ e.1.1 ∧ e.1.1 < m.rows ∧ 0 ≤ e.1.2 ∧ e.1.2 < m.cols

instance entriesOkDec (m : SparseMatrix) : Decidable (entriesOk m) := by
  unfold entriesOk
  exact inferInstance

end PairM

/-! ## Association-list lemmas -/

section AList

variable {α β : Type} [DecidableEq α]

theorem alookup_aset_self (l : List (α × β)) (k : α) (v : β) :
    alookup (aset l k v) k = some v := by
  induction l with
  | nil => simp [aset, alookup]
  | cons hd tl ih =>
    obtain ⟨k0, v0⟩ := hd
    by_cases h : k0 = k
    · simp [aset, alookup, h]
    · simp [aset, alookup, h, ih]

theorem alookup_aset_ne (l : List (α × β)) {k k' : α} (v : β) (h : k' ≠ k) :
    alookup (aset l k v) k' = alookup l k' := by
  induction l with
  | nil => simp [aset, alookup, Ne.symm h]
  | cons hd tl ih =>
    obtain ⟨k0, v0⟩ := hd
    by_cases h1 : k0 = k
    · subst h1
      simp [aset, alookup, Ne.symm h]
    · simp only [aset, if_neg h1, alookup]
      by_cases h2 : k0 = k'
      · simp [h2]
      · simp [h2, ih]

theorem alookup_aerase_ne (l : List (α × β)) {k k' : α} (h : k' ≠ k) :
    alookup (aerase l k) k' = alookup l k' := by
  induction l with
  | nil => simp [aerase]
  | cons hd tl ih =>
    obtain ⟨k0, v0⟩ := hd
    by_cases h1 : k0 = k
    · subst h1
      simp [aerase, alookup, Ne.symm h]
    · simp only [aerase, if_neg h1, alookup]
      by_cases h2 : k0 = k'
      · simp [h2]
      · simp [h2, ih]

theorem alookup_mem {l : List (α × β)} {k : α} {v : β}
    (h : alookup l k = some v) : (k, v) ∈ l := by
  induction l with
  | nil => simp [alookup] at h
  | cons hd tl ih =>
    obtain ⟨k0, v0⟩ := hd
    by_cases h1 : k0 = k
    · simp [alookup, h1] at h
      simp [h1, h]
    · simp [alookup, h1] at h
      exact List.mem_cons_of_mem _ (ih h)

theorem alookup_isSome_of_mem {l : List (α × β)} {k : α} {v : β}
    (h : (k, v) ∈ l) : alookup l k ≠ none := by
  induction l with
  | nil => simp at h
  | cons hd tl ih =>
    obtain ⟨k0, v0⟩ := hd
    rcases List.mem_cons.mp h with h1 | h1
    · rw [Prod.mk.injEq] at h1
      simp [alookup, h1.1.symm]
    · by_cases h2 : k0 = k
      · simp [alookup, h2]
      · simp [alookup, h2]
        exact ih h1

theorem alookup_of_mem_nodup {l : List (α × β)} {k : α} {v : β}
    (hnd : nodupKeys l) (h : (k, v) ∈ l) : alookup l k = some v := by
  induction l with
  | nil => simp at h
  | cons hd tl ih =>
    obtain ⟨k0, v0⟩ := hd
    rcases List.mem_cons.mp h with h1 | h1
    · rw [Prod.mk.injEq] at h1
      simp [alookup, h1.1.symm, h1.2.symm]
    · by_cases h2 : k0 = k
      · exact absurd (h2 ▸ hnd.1) (alookup_isSome_of_mem h1)
      · simp [alookup, h2]
        exact ih hnd.2 h1

theorem alookup_aerase_self {l : List (α × β)} {k : α} (hnd : nodupKeys l) :
    alookup (aerase l k) k = none := by
  induction l with
  | nil => simp [aerase, alookup]
  | cons hd tl ih =>
    obtain ⟨k0, v0⟩ := hd
    by_cases h1 : k0 = k
    · simpa [aerase, h1] using h1 ▸ hnd.1
    · simp [aerase, alookup, h1]
      exact ih hnd.2

theorem mem_aset {l : List (α × β)} {k : α} {v : β} {x : α × β}
    (h : x ∈ aset l k v) : x ∈ l ∨ x = (k, v) := by
  induction l with
  | nil =>
    simp [aset] at h
    exact .inr h
  | cons hd tl ih =>
    obtain ⟨k0, v0⟩ := hd
    by_cases h1 : k0 = k
    · simp [aset, h1] at h
      rcases h with h | h
      · exact .inr (by simp [h])
      · exact .inl (List.mem_cons_of_mem _ h)
    · simp [aset, h1] at h
      rcases h with h | h
      · exact .inl (by simp [h])
      · rcases ih h with h2 | h2
        · exact .inl (List.mem_cons_of_mem _ h2)
        · exact .inr h2

theorem mem_aerase {l : List (α × β)} {k : α} {x : α × β}
    (h : x ∈ aerase l k) : x ∈ l := by
  induction l with
  | nil => simp [aerase] at h
  | cons hd tl ih =>
    obtain ⟨k0, v0⟩ := hd
    by_cases h1 : k0 = k
    · simp [aerase, h1] at h
      exact List.mem_cons_of_mem _ h
    · simp [aerase, h1] at h
      rcases h with h | h
      · simp [h]
      · exact List.mem_cons_of_mem _ (ih h)

theorem nodupKeys_aset {l : List (α × β)} {k : α} {v : β}
    (hnd : nodupKeys l) : nodupKeys (aset l k v) := by
  induction l with
  | nil => exact ⟨rfl, trivial⟩
  | cons hd tl ih =>
    obtain ⟨k0, v0⟩ := hd
    by_cases h1 : k0 = k
    · simp only [aset, if_pos h1]
      exact ⟨h1 ▸ hnd.1, hnd.2⟩
    · simp only [aset, if_neg h1]
      refine ⟨?_, ih hnd.2⟩
      rw [alookup_aset_ne tl v h1]
      exact hnd.1

theorem nodupKeys_aerase {l : List (α × β)} {k : α}
    (hnd : nodupKeys l) : nodupKeys (aerase l k) := by
  induction l with
  | nil => trivial
  | cons hd tl ih =>
    obtain ⟨k0, v0⟩ := hd
    by_cases h1 : k0 = k
    · simpa [aerase, h1] using hnd.2
    · simp only [aerase, if_neg h1]
      refine ⟨?_, ih hnd.2⟩
      rw [alookup_aerase_ne tl h1]
      exact hnd.1

theorem aset_ne_nil (l : List (α × β)) (k : α) (v : β) : aset l k v ≠ [] := by
  cases l with
  | nil => simp [aset]
  | cons hd tl =>
    obtain ⟨k0, v0⟩ := hd
    by_cases h1 : k0 = k <;> simp [aset, h1]

theorem aerase_eq_nil {l : List (α × β)} {k : α} (h : aerase l k = []) :
    l = [] ∨ ∃ v, l = [(k, v)] := by
  cases l with
  | nil => exact .inl rfl
  | cons hd tl =>
    obtain ⟨k0, v0⟩ := hd
    by_cases h1 : k0 = k
    · simp [aerase, h1] at h
      subst h
      exact .inr ⟨v0, by rw [h1]⟩
    · simp [aerase, h1] at h

theorem aset_fresh {l : List (α × β)} {k : α} (v : β)
    (h : alookup l k = none) : aset l k v = l ++ [(k, v)] := by
  induction l with
  | nil => simp [aset]
  | cons hd tl ih =>
    obtain ⟨k0, v0⟩ := hd
    by_cases h1 : k0 = k
    · simp [alookup, h1] at h
    · simp [alookup, h1] at h
      simp [aset, h1, ih h]

theorem alookup_append_left {l1 l2 : List (α × β)} {k : α} {v : β}
    (h : alookup l1 k = some v) : alookup (l1 ++ l2) k = some v := by
  induction l1 with
  | nil => simp [alookup] at h
  | cons hd tl ih =>
    obtain ⟨k0, v0⟩ := hd
    by_cases h1 : k0 = k
    · simpa [alookup, h1] using h
    · simp [alookup, h1] at h ⊢
      exact ih h

theorem alookup_append_right {l1 l2 : List (α × β)} {k : α}
    (h : alookup l1 k = none) : alookup (l1 ++ l2) k = alookup l2 k := by
  induction l1 with
  | nil => simp [alookup]
  | cons hd tl ih =>
    obtain ⟨k0, v0⟩ := hd
    by_cases h1 : k0 = k
    · simp [alookup, h1] at h
    · simp [alookup, h1] at h ⊢
      exact ih h

end AList

/-! ## PairM: lemmas about the pair-keyed implementation -/

namespace PairM

theorem get_inb {m : SparseMatrix} {r c : Int} (h : inBounds m r c) :
    get_element m r c = .ok (getRaw m r c) := by
  simp [get_element, getRaw, h]

theorem get_oob {m : SparseMatrix} {r c : Int} (h : ¬ inBounds m r c) :
    get_element m r c = .error (.indexError "Index out of bounds.") := by
  simp [get_element, h]

theorem set_data (m : SparseMatrix) (r c v : Int) :
    alookup (set_element m r c v).data (r, c) = some v := by
  simp [set_element, alookup_aset_self]

theorem addLoop_zero (R C : Int) :
    ∀ (l : List ((Int × Int) × Int)) (acc : SparseMatrix),
    (∀ e ∈ l, 0 ≤ e.1.1 ∧ e.1.1 < R ∧ 0 ≤ e.1.2 ∧ e.1.2 < C) →
    nodupKeys l →
    (∀ e ∈ l, alookup acc.data e.1 = none) →
    addLoop ⟨R, C, []⟩ acc l = .ok { acc with data := acc.data ++ l } := by
  intro l
  induction l with
  | nil =>
    intro acc _ _ _
    simp [addLoop]
  | cons e rest ih =>
    intro acc hbounds hnd hfresh
    obtain ⟨h1, h2, h3, h4⟩ := hbounds e (List.mem_cons_self _ _)
    have hget : get_element (⟨R, C, []⟩ : SparseMatrix) e.1.1 e.1.2 = .ok 0 := by
      rw [get_inb ⟨h1, h2, h3, h4⟩]
      simp [getRaw, alookup]
    simp only [addLoop, hget]
    have hdata : (set_element acc e.1.1 e.1.2 (e.2 + 0)).data =
        acc.data ++ [e] := by
      have hkey : ((e.1.1, e.1.2) : Int × Int) = e.1 := rfl
      simp only [set_element, hkey, add_zero]
      rw [aset_fresh _ (hfresh e (List.mem_cons_self _ _))]
    have hrows : (set_element acc e.1.1 e.1.2 (e.2 + 0)).rows = acc.rows := rfl
    have hcols : (set_element acc e.1.1 e.1.2 (e.2 + 0)).cols = acc.cols := rfl
    rw [ih (set_element acc e.1.1 e.1.2 (e.2 + 0))
      (fun e' he' => hbounds e' (List.mem_cons_of_mem _ he'))
      hnd.2
      (fun e' he' => by
        rw [hdata]
        have hne : e.1 ≠ e'.1 := by
          intro hx
          have hmem : (e'.1, e'.2) ∈ rest := he'
          rw [← hx] at hmem
          exact alookup_isSome_of_mem hmem hnd.1
        rw [alookup_append_right (hfresh e' (List.mem_cons_of_mem _ he'))]
        simp [alookup, hne])]
    apply congrArg
    cases acc with
    | mk ar ac ad =>
      simp only [SparseMatrix.mk.injEq] at hdata ⊢
      refine ⟨hrows, hcols, ?_⟩
      rw [hdata]
      simp

theorem subLoop_self {P : SparseMatrix} (hnd : nodupKeys P.data)
    (hok : entriesOk P) :
    ∀ (l : List ((Int × Int) × Int)) (acc : SparseMatrix),
    (∀ e ∈ l, e ∈ P.data) →
    nodupKeys l →
    (∀ e ∈ l, alookup acc.data e.1 = none) →
    subLoop P acc l =
      .ok { acc with data := acc.data ++ l.map (fun e => (e.1, (0 : Int))) } := by
  intro l
  induction l with
  | nil =>
    intro acc _ _ _
    simp [subLoop]
  | cons e rest ih =>
    intro acc hmem hnd2 hfresh
    have heP : e ∈ P.data := hmem e (List.mem_cons_self _ _)
    obtain ⟨h1, h2, h3, h4⟩ := hok.2 e heP
    have hlk : alookup P.data e.1 = some e.2 := by
      have : (e.1, e.2) ∈ P.data := heP
      exact alookup_of_mem_nodup hnd this
    have hget : get_element P e.1.1 e.1.2 = .ok e.2 := by
      have hkey : ((e.1.1, e.1.2) : Int × Int) = e.1 := rfl
      simp only [get_element, getRaw]
      rw [if_pos ⟨h1, h2, h3, h4⟩, hkey, hlk]
      rfl
    simp only [subLoop, hget]
    have hdata : (set_element acc e.1.1 e.1.2 (e.2 - e.2)).data =
        acc.data ++ [(e.1, (0 : Int))] := by
      have hkey : ((e.1.1, e.1.2) : Int × Int) = e.1 := rfl
      simp only [set_element, hkey, sub_self]
      rw [aset_fresh _ (hfresh e (List.mem_cons_self _ _))]
    have hrows : (set_element acc e.1.1 e.1.2 (e.2 - e.2)).rows = acc.rows := rfl
    have hcols : (set_element acc e.1.1 e.1.2 (e.2 - e.2)).cols = acc.cols := rfl
    rw [ih (set_element acc e.1.1 e.1.2 (e.2 - e.2))
      (fun e' he' => hmem e' (List.mem_cons_of_mem _ he'))
      hnd2.2
      (fun e' he' => by
        rw [hdata]
        have hne : e.1 ≠ e'.1 := by
          intro hx
          have hmem2 : (e'.1, e'.2) ∈ rest := he'
          rw [← hx] at hmem2
          exact alookup_isSome_of_mem hmem2 hnd2.1
        rw [alookup_append_right (hfresh e' (List.mem_cons_of_mem _ he'))]
        simp [alookup, hne])]
    apply congrArg
    cases acc with
    | mk ar ac ad =>
      simp only [SparseMatrix.mk.injEq] at hdata ⊢
      refine ⟨hrows, hcols, ?_⟩
      rw [hdata]
      simp

theorem getD_map_zero :
    ∀ (l : List ((Int × Int) × Int)) (p : Int × Int),
    (alookup (l.map fun e => (e.1, (0 : Int))) p).getD 0 = 0 := by
  intro l
  induction l with
  | nil => intro p; simp [alookup]
  | cons e rest ih =>
    intro p
    by_cases hp : e.1 = p
    · simp [alookup, hp]
    · simp only [List.map_cons, alookup, if_neg hp]
      exact ih p

theorem listRangeSum (f : Nat → Int) :
    ∀ n : Nat, ((List.range n).map f).sum = Finset.sum (Finset.range n) f := by
  intro n
  induction n with
  | zero => simp
  | succ n ih =>
    rw [List.range_succ, Finset.sum_range_succ, List.map_append, List.sum_append,
      ← ih]
    simp

theorem range_cast_lt {n : Int} {k : Nat} (h : k ∈ List.range n.toNat) :
    (k : Int) < n := by
  have hk := List.mem_range.mp h
  rcases le_or_lt 0 n with hn | hn
  · calc ((k : Nat) : Int) < (n.toNat : Int) := by exact_mod_cast hk
      _ = n := Int.toNat_of_nonneg hn
  · rw [Int.toNat_of_nonpos (le_of_lt hn)] at hk
    exact absurd hk (Nat.not_lt_zero k)

theorem sumK_spec {self other : SparseMatrix} {i j : Int}
    (hi0 : 0 ≤ i) (hi1 : i < self.rows) (hj0 : 0 ≤ j) (hj1 : j < other.cols)
    (hco : self.cols = other.rows) :
    ∀ (ks : List Nat) (s : Int), (∀ k ∈ ks, (k : Int) < self.cols) →
    sumK self other i j ks s =
      .ok (s + (List.map (fun k : Nat =>
        getRaw self i (k : Int) * getRaw other (k : Int) j) ks).sum) := by
  intro ks
  induction ks with
  | nil => intro s _; simp [sumK]
  | cons k rest ih =>
    intro s hks
    have hk := hks k (List.mem_cons_self _ _)
    have hga : get_element self i (k : Int) = .ok (getRaw self i (k : Int)) :=
      get_inb ⟨hi0, hi1, Int.natCast_nonneg k, hk⟩
    have hgb : get_element other (k : Int) j = .ok (getRaw other (k : Int) j) :=
      get_inb ⟨Int.natCast_nonneg k, hco ▸ hk, hj0, hj1⟩
    simp only [sumK, hga, hgb]
    rw [ih _ (fun k' hk' => hks k' (List.mem_cons_of_mem _ hk'))]
    simp only [List.map_cons, List.sum_cons]
    ring_nf

theorem colLoop_spec {self other : SparseMatrix} {i : Int}
    (hi0 : 0 ≤ i) (hi1 : i < self.rows) (hco : self.cols = other.rows) :
    ∀ (js : List Nat) (res : SparseMatrix), js.Nodup →
    (∀ j ∈ js, (j : Int) < other.cols) →
    ∃ res', colLoop self other i res js = .ok res' ∧
      res'.rows = res.rows ∧ res'.cols = res.cols ∧
      (∀ j ∈ js, alookup res'.data (i, (j : Int)) =
        (if dotSumP self other i (j : Int) ≠ 0
         then some (dotSumP self other i (j : Int))
         else alookup res.data (i, (j : Int)))) ∧
      (∀ p : Int × Int, (p.1 ≠ i ∨ ∀ j ∈ js, p.2 ≠ (j : Int)) →
        alookup res'.data p = alookup res.data p) := by
  intro js
  induction js with
  | nil =>
    intro res _ _
    exact ⟨res, rfl, rfl, rfl, fun j hj => absurd hj (List.not_mem_nil j),
      fun p _ => rfl⟩
  | cons j rest ih =>
    intro res hnd hjs
    have hj := hjs j (List.mem_cons_self _ _)
    have hsum : sumK self other i (j : Int) (List.range self.cols.toNat) 0 =
        .ok (dotSumP self other i (j : Int)) := by
      rw [sumK_spec hi0 hi1 (Int.natCast_nonneg j) hj hco _ 0
        (fun k hk => range_cast_lt hk)]
      rw [zero_add, listRangeSum]
      rfl
    simp only [colLoop, hsum]
    set res1 := if dotSumP self other i (j : Int) ≠ 0
      then set_element res i (j : Int) (dotSumP self other i (j : Int)) else res with hres1
    have hrows1 : res1.rows = res.rows := by
      rw [hres1]; split <;> rfl
    have hcols1 : res1.cols = res.cols := by
      rw [hres1]; split <;> rfl
    have hat1 : alookup res1.data (i, (j : Int)) =
        (if dotSumP self other i (j : Int) ≠ 0
         then some (dotSumP self other i (j : Int))
         else alookup res.data (i, (j : Int))) := by
      rw [hres1]
      split
      · simp [set_element, alookup_aset_self]
      · rfl
    have hoff1 : ∀ p : Int × Int, p ≠ (i, (j : Int)) →
        alookup res1.data p = alookup res.data p := by
      intro p hp
      rw [hres1]
      split
      · simp only [set_element]
        exact alookup_aset_ne _ _ hp
      · rfl
    rw [List.nodup_cons] at hnd
    obtain ⟨res', hrun, hr', hc', hkeys, hoff⟩ := ih res1 hnd.2
      (fun j' hj' => hjs j' (List.mem_cons_of_mem _ hj'))
    refine ⟨res', hrun, hr'.trans hrows1, hc'.trans hcols1, ?_, ?_⟩
    · intro j' hj'
      rcases List.mem_cons.mp hj' with hj2 | hj2
      · subst hj2
        rw [hoff (i, (j' : Int)) (.inr fun j'' hj'' => by
          intro hc
          have hc2 : ((j' : Int)) = ((j'' : Int)) := hc
          have : j'' = j' := by exact_mod_cast hc2.symm
          rw [this] at hj''
          exact hnd.1 hj'')]
        exact hat1
      · rw [hkeys j' hj2]
        have hne : ((i, (j' : Int)) : Int × Int) ≠ (i, (j : Int)) := by
          intro hc
          have hcc : ((j' : Int)) = (j : Int) := congrArg Prod.snd hc
          have : j' = j := by exact_mod_cast hcc
          rw [this] at hj2
          exact hnd.1 hj2
        rw [hoff1 _ hne]
    · intro p hp
      have hp1 : p.1 ≠ i ∨ ∀ j'' ∈ rest, p.2 ≠ (j'' : Int) := by
        rcases hp with hp | hp
        · exact .inl hp
        · exact .inr fun j'' hj'' => hp j'' (List.mem_cons_of_mem _ hj'')
      rw [hoff p hp1]
      refine hoff1 p ?_
      intro hc
      rcases hp with hp | hp
      · exact hp (congrArg Prod.fst hc)
      · exact hp j (List.mem_cons_self _ _) (congrArg Prod.snd hc)

theorem rowLoop_spec {self other : SparseMatrix} (hco : self.cols = other.rows) :
    ∀ (is : List Nat) (res : SparseMatrix), is.Nodup →
    (∀ i ∈ is, (i : Int) < self.rows) →
    ∃ res', rowLoop self other res is = .ok res' ∧
      res'.rows = res.rows ∧ res'.cols = res.cols ∧
      (∀ i ∈ is, ∀ j : Nat, j < other.cols.toNat →
        alookup res'.data ((i : Int), (j : Int)) =
          (if dotSumP self other (i : Int) (j : Int) ≠ 0
           then some (dotSumP self other (i : Int) (j : Int))
           else alookup res.data ((i : Int), (j : Int)))) ∧
      (∀ p : Int × Int, (∀ i ∈ is, p.1 ≠ (i : Int)) →
        alookup res'.data p = alookup res.data p) := by
  intro is
  induction is with
  | nil =>
    intro res _ _
    exact ⟨res, rfl, rfl, rfl, fun i hi => absurd hi (List.not_mem_nil i),
      fun p _ => rfl⟩
  | cons i rest ih =>
    intro res hnd his
    rw [List.nodup_cons] at hnd
    obtain ⟨res1, hrun1, hrows1, hcols1, hkeys1, hoff1⟩ :=
      colLoop_spec (Int.natCast_nonneg i) (his i (List.mem_cons_self _ _)) hco
        (List.range other.cols.toNat) res (List.nodup_range _)
        (fun j hj => range_cast_lt hj)
    obtain ⟨res', hrun, hr', hc', hkeys, hoff⟩ := ih res1 hnd.2
      (fun i' hi' => his i' (List.mem_cons_of_mem _ hi'))
    refine ⟨res', ?_, hr'.trans hrows1, hc'.trans hcols1, ?_, ?_⟩
    · simp only [rowLoop, hrun1]
      exact hrun
    · intro i' hi' j hjlt
      rcases List.mem_cons.mp hi' with hi2 | hi2
      · subst hi2
        rw [hoff ((i' : Int), (j : Int)) (fun i'' hi'' => by
          intro hc
          have hc2 : ((i' : Int)) = ((i'' : Int)) := hc
          have : i'' = i' := by exact_mod_cast hc2.symm
          rw [this] at hi''
          exact hnd.1 hi'')]
        rw [hkeys1 j (List.mem_range.mpr hjlt)]
      · rw [hkeys i' hi2 j hjlt]
        have hne : ((i' : Int), (j : Int)).1 ≠ (i : Int) := by
          intro hc
          have hc2 : ((i' : Int)) = ((i : Int)) := hc
          have : i' = i := by exact_mod_cast hc2
          rw [this] at hi2
          exact hnd.1 hi2
        rw [hoff1 _ (.inl hne)]
    · intro p hp
      rw [hoff p (fun i'' hi'' => hp i'' (List.mem_cons_of_mem _ hi''))]
      exact hoff1 p (.inl (hp i (List.mem_cons_self _ _)))

theorem pair_multiply_spec {self other : SparseMatrix}
    (hco : self.cols = other.rows) :
    ∃ R, multiply self other = .ok R ∧ R.rows = self.rows ∧
      R.cols = other.cols ∧
      ∀ r c, inBounds R r c →
        get_element R r c = .ok (dotSumP self other r c) := by
  obtain ⟨R, hrun, hr', hc', hkeys, _⟩ :=
    rowLoop_spec hco (List.range self.rows.toNat)
      ⟨self.rows, other.cols, []⟩ (List.nodup_range _)
      (fun i hi => range_cast_lt hi)
  refine ⟨R, ?_, hr', hc', ?_⟩
  · unfold multiply
    rw [if_neg (by simp [hco])]
    exact hrun
  · intro r c hb
    obtain ⟨hr0, hr1, hc0, hc1⟩ := hb
    rw [hr'] at hr1
    rw [hc'] at hc1
    have hrmem : r.toNat ∈ List.range self.rows.toNat :=
      List.mem_range.mpr ((Int.toNat_lt_toNat (lt_of_le_of_lt hr0 hr1)).mpr hr1)
    have hclt : c.toNat < other.cols.toNat :=
      (Int.toNat_lt_toNat (lt_of_le_of_lt hc0 hc1)).mpr hc1
    have hrc : ((r.toNat : Nat) : Int) = r := Int.toNat_of_nonneg hr0
    have hcc : ((c.toNat : Nat) : Int) = c := Int.toNat_of_nonneg hc0
    have hlook := hkeys r.toNat hrmem c.toNat hclt
    rw [hrc, hcc] at hlook
    have hib : inBounds R r c := by
      refine ⟨hr0, ?_, hc0, ?_⟩
      · rw [hr']; exact hr1
      · rw [hc']; exact hc1
    rw [get_inb hib]
    unfold getRaw
    rw [hlook]
    by_cases hz : dotSumP self other r c ≠ 0
    · rw [if_pos hz]
      rfl
    · rw [if_neg hz]
      push_neg at hz
      simp [alookup, hz]

end PairM


/-! ## MainPy: `set_element` characterization -/

namespace MainPy

theorem set_oob {m : SparseMatrix} {row col : Int} (v : Int)
    (h : ¬ inBounds m row col) :
    set_element m row col v = .error .indexOutOfBounds := by
  simp [set_element, h]

theorem set_cases {m m' : SparseMatrix} {row col v : Int}
    (h : set_element m row col v = .ok m') :
    inBounds m row col ∧
    ((v ≠ 0 ∧ m' = { m with
        data := aset m.data row (aset ((alookup m.data row).getD []) col v),
        nnz := m.nnz + 1 }) ∨
     (v = 0 ∧ stored m row col = none ∧ m' = m) ∨
     (v = 0 ∧ ∃ rowMap w, alookup m.data row = some rowMap ∧
        alookup rowMap col = some w ∧
        m' = { m with
          data := if (aerase rowMap col).isEmpty then aerase m.data row
                  else aset m.data row (aerase rowMap col),
          nnz := m.nnz - 1 })) := by
  by_cases hb : inBounds m row col
  · refine ⟨hb, ?_⟩
    by_cases hv : v ≠ 0
    · simp only [set_element, if_pos hb, if_pos hv, Except.ok.injEq] at h
      exact .inl ⟨hv, h.symm⟩
    · push_neg at hv
      subst hv
      cases h1 : alookup m.data row with
      | none =>
        simp only [set_element, if_pos hb, if_neg (by simp : ¬(0:Int) ≠ 0),
          h1, Except.ok.injEq] at h
        exact .inr (.inl ⟨rfl, by simp [stored, h1], h.symm⟩)
      | some rowMap =>
        cases h2 : alookup rowMap col with
        | none =>
          simp only [set_element, if_pos hb, if_neg (by simp : ¬(0:Int) ≠ 0),
            h1, h2, Except.ok.injEq] at h
          exact .inr (.inl ⟨rfl, by simp [stored, h1, h2], h.symm⟩)
        | some w =>
          simp only [set_element, if_pos hb, if_neg (by simp : ¬(0:Int) ≠ 0),
            h1, h2, Except.ok.injEq] at h
          exact .inr (.inr ⟨rfl, rowMap, w, rfl, h2, h.symm⟩)
  · rw [set_oob v hb] at h
    exact absurd h (by simp)

theorem set_inb {m : SparseMatrix} {row col : Int} (v : Int)
    (h : inBounds m row col) :
    ∃ m', set_element m row col v = .ok m' := by
  cases hres : set_element m row col v with
  | ok m1 => exact ⟨m1, rfl⟩
  | error e =>
    exfalso
    unfold set_element at hres
    rw [if_pos h] at hres
    split at hres
    · exact Except.noConfusion hres
    · split at hres
      · exact Except.noConfusion hres
      · split at hres
        · exact Except.noConfusion hres
        · simp at hres

theorem set_dims {m m' : SparseMatrix} {row col v : Int}
    (h : set_element m row col v = .ok m') :
    m'.rows = m.rows ∧ m'.cols = m.cols := by
  obtain ⟨hb, hc⟩ := set_cases h
  rcases hc with ⟨_, rfl⟩ | ⟨_, _, rfl⟩ | ⟨_, rowMap, w, _, _, rfl⟩ <;>
    exact ⟨rfl, rfl⟩

theorem stored_set_self {m m' : SparseMatrix} {row col v : Int}
    (hw : wf m) (h : set_element m row col v = .ok m') :
    stored m' row col = if v = 0 then none else some v := by
  obtain ⟨hb, hc⟩ := set_cases h
  rcases hc with ⟨hv, rfl⟩ | ⟨hv, hs, rfl⟩ | ⟨hv, rowMap, w, h1, h2, rfl⟩
  · rw [if_neg hv]
    simp [stored, alookup_aset_self]
  · rw [if_pos hv]
    exact hs
  · rw [if_pos hv]
    by_cases he : (aerase rowMap col).isEmpty
    · have : alookup (aerase m.data row) row = none :=
        alookup_aerase_self hw.1
      simp [stored, he, this]
    · have hrm : (row, rowMap) ∈ m.data := alookup_mem h1
      have hnd : nodupKeys rowMap := ((hw.2 _ hrm).2.2.1).1
      have : alookup (aerase rowMap col) col = none := alookup_aerase_self hnd
      simp [stored, he, alookup_aset_self, this]

theorem stored_set_ne {m m' : SparseMatrix} {row col v : Int}
    (hw : wf m) (h : set_element m row col v = .ok m') {r c : Int}
    (hne : r ≠ row ∨ c ≠ col) :
    stored m' r c = stored m r c := by
  obtain ⟨hb, hc⟩ := set_cases h
  rcases hc with ⟨hv, rfl⟩ | ⟨hv, hs, rfl⟩ | ⟨hv, rowMap, w, h1, h2, rfl⟩
  · by_cases hr : r = row
    · subst hr
      rcases hne with hne | hne
      · exact absurd rfl hne
      · cases h1 : alookup m.data r with
        | none =>
          simp [stored, alookup_aset_self, h1, alookup_aset_ne _ _ hne,
            alookup, Ne.symm hne]
        | some rm =>
          simp [stored, alookup_aset_self, h1, alookup_aset_ne _ _ hne]
    · simp only [stored]
      rw [alookup_aset_ne _ _ hr]
  · rfl
  · by_cases hr : r = row
    · subst hr
      rcases hne with hne | hne
      · exact absurd rfl hne
      · by_cases he : (aerase rowMap col).isEmpty
        · have hnil : aerase rowMap col = [] := by
            cases hh : aerase rowMap col with
            | nil => rfl
            | cons a b => rw [hh] at he; simp at he
          have : rowMap = [(col, w)] := by
            rcases aerase_eq_nil hnil with h3 | ⟨v2, h3⟩
            · rw [h3] at h2; simp [alookup] at h2
            · rw [h3] at h2
              simp [alookup] at h2
              rw [h3, h2]
          have h4 : alookup (aerase m.data r) r = none :=
            alookup_aerase_self hw.1
          simp [stored, he, h4, h1, this, alookup, aerase, Ne.symm hne]
        · simp [stored, he, alookup_aset_self, h1,
            alookup_aerase_ne _ hne]
    · by_cases he : (aerase rowMap col).isEmpty <;>
        simp only [stored, he, if_pos, if_neg, Bool.false_eq_true,
          not_false_eq_true, alookup_aerase_ne _ hr, alookup_aset_ne _ _ hr]

theorem wf_set {m m' : SparseMatrix} {row col v : Int}
    (hw : wf m) (h : set_element m row col v = .ok m') : wf m' := by
  obtain ⟨hb, hc⟩ := set_cases h
  obtain ⟨hb1, hb2, hb3, hb4⟩ := hb
  rcases hc with ⟨hv, rfl⟩ | ⟨hv, hs, rfl⟩ | ⟨hv, rowMap, w, h1, h2, rfl⟩
  · constructor
    · exact nodupKeys_aset hw.1
    · intro rr hrr
      rcases mem_aset hrr with hin | heq
      · exact hw.2 rr hin
      · subst heq
        have hndOld : nodupKeys ((alookup m.data row).getD []) := by
          cases h1 : alookup m.data row with
          | none => trivial
          | some rm => exact ((hw.2 _ (alookup_mem h1)).2.2.1).1
        refine ⟨hb1, hb2, ⟨nodupKeys_aset hndOld, ?_⟩, aset_ne_nil _ _ _⟩
        intro cv hcv
        rcases mem_aset hcv with hin | heq2
        · cases h1 : alookup m.data row with
          | none => rw [h1] at hin; simp at hin
          | some rm =>
            rw [h1] at hin
            exact ((hw.2 _ (alookup_mem h1)).2.2.1).2 cv hin
        · subst heq2
          exact ⟨hb3, hb4, hv⟩
  · exact hw
  · by_cases he : (aerase rowMap col).isEmpty
    · simp only [if_pos he]
      constructor
      · exact nodupKeys_aerase hw.1
      · intro rr hrr
        exact hw.2 rr (mem_aerase hrr)
    · simp only [if_neg he]
      have hrm : (row, rowMap) ∈ m.data := alookup_mem h1
      have hprops := hw.2 _ hrm
      constructor
      · exact nodupKeys_aset hw.1
      · intro rr hrr
        rcases mem_aset hrr with hin | heq
        · exact hw.2 rr hin
        · subst heq
          refine ⟨hprops.1, hprops.2.1,
            ⟨nodupKeys_aerase hprops.2.2.1.1, ?_⟩, ?_⟩
          · intro cv hcv
            exact hprops.2.2.1.2 cv (mem_aerase hcv)
          · intro hnil
            have h5 : aerase rowMap col = [] := hnil
            rw [h5] at he
            simp at he

theorem get_eq_stored (m : SparseMatrix) (r c : Int) :
    get_element m r c = (stored m r c).getD 0 := by
  unfold get_element stored
  cases alookup m.data r <;> simp [alookup]

theorem get_set_self {m m' : SparseMatrix} {row col v : Int}
    (hw : wf m) (h : set_element m row col v = .ok m') :
    get_element m' row col = v := by
  rw [get_eq_stored, stored_set_self hw h]
  by_cases hv : v = 0 <;> simp [hv]

theorem get_set_ne {m m' : SparseMatrix} {row col v : Int}
    (hw : wf m) (h : set_element m row col v = .ok m') {r c : Int}
    (hne : r ≠ row ∨ c ≠ col) :
    get_element m' r c = get_element m r c := by
  rw [get_eq_stored, get_eq_stored, stored_set_ne hw h hne]

theorem stored_some {m : SparseMatrix} {r c v : Int}
    (hw : wf m) (h : stored m r c = some v) :
    inBounds m r c ∧ v ≠ 0 := by
  unfold stored at h
  cases h1 : alookup m.data r with
  | none => rw [h1] at h; exact absurd h (by simp)
  | some rm =>
    rw [h1] at h
    have hrm := hw.2 _ (alookup_mem h1)
    have hcv := hrm.2.2.1.2 _ (alookup_mem h)
    exact ⟨⟨hrm.1, hrm.2.1, hcv.1, hcv.2.1⟩, hcv.2.2⟩

theorem stored_of_get {m : SparseMatrix} {r c v : Int}
    (h : get_element m r c = v) (hv : v ≠ 0) :
    stored m r c = some v := by
  rw [get_eq_stored] at h
  cases hs : stored m r c with
  | none => rw [hs] at h; simp at h; exact absurd h.symm hv
  | some w => rw [hs] at h; simp at h; rw [h]

theorem stored_eq_of_get_eq {m m' : SparseMatrix}
    (hw : wf m) (hw' : wf m')
    (hg : ∀ r c, get_element m r c = get_element m' r c) :
    ∀ r c, stored m r c = stored m' r c := by
  intro r c
  cases hs : stored m r c with
  | some v =>
    have hv := (stored_some hw hs).2
    have : get_element m r c = v := by rw [get_eq_stored, hs]; rfl
    exact (stored_of_get ((hg r c).symm.trans this) hv).symm
  | none =>
    cases hs' : stored m' r c with
    | none => rfl
    | some v =>
      have hv := (stored_some hw' hs').2
      have h1 : get_element m' r c = v := by rw [get_eq_stored, hs']; rfl
      have h2 : get_element m r c = 0 := by rw [get_eq_stored, hs]; rfl
      rw [hg r c, h1] at h2
      exact absurd h2 hv

theorem wf_mk (r c : Int) : wf (mk r c) :=
  ⟨trivial, fun rr hrr => absurd hrr (List.not_mem_nil rr)⟩

theorem stored_mk (r c row col : Int) : stored (mk r c) row col = none := by
  simp [stored, mk, alookup]

theorem data_nil_of_stored_none {m : SparseMatrix}
    (hw : wf m) (hs : ∀ r c, stored m r c = none) : m.data = [] := by
  cases hdata : m.data with
  | nil => rfl
  | cons hd rest =>
    obtain ⟨r0, rw0⟩ := hd
    exfalso
    have hmem : (r0, rw0) ∈ m.data := by rw [hdata]; exact List.mem_cons_self _ _
    have hne := (hw.2 _ hmem).2.2.2
    cases hrw : rw0 with
    | nil => exact hne hrw
    | cons cv rest2 =>
      obtain ⟨c0, v0⟩ := cv
      have : stored m r0 c0 = some v0 := by
        simp [stored, hdata, alookup, hrw]
      rw [hs r0 c0] at this
      exact Option.noConfusion this

theorem setList_wf {ops : List (Int × Int × Int)} :
    ∀ {m m' : SparseMatrix}, wf m → setList m ops = .ok m' → wf m' := by
  induction ops with
  | nil => intro m m' hw h; simp [setList] at h; rw [← h]; exact hw
  | cons e rest ih =>
    intro m m' hw h
    simp only [setList] at h
    cases h1 : set_element m e.1 e.2.1 e.2.2 with
    | ok m1 =>
      rw [h1] at h
      exact ih (wf_set hw h1) h
    | error err => rw [h1] at h; exact absurd h (by simp)

end MainPy

/-! ## Entry-list lemmas -/

theorem lookupE_none_mem {l : List (Int × Int × Int)} {r c : Int}
    (h : lookupE l r c = none) :
    ∀ e ∈ l, ¬(e.1 = r ∧ e.2.1 = c) := by
  induction l with
  | nil => intro e he; simp at he
  | cons hd tl ih =>
    intro e he
    by_cases h1 : hd.1 = r ∧ hd.2.1 = c
    · simp [lookupE, h1] at h
    · simp only [lookupE, if_neg h1] at h
      rcases List.mem_cons.mp he with he | he
      · subst he; exact h1
      · exact ih h e he

theorem lookupE_isSome_of_mem {l : List (Int × Int × Int)} {e : Int × Int × Int}
    (h : e ∈ l) : lookupE l e.1 e.2.1 ≠ none := by
  induction l with
  | nil => simp at h
  | cons hd tl ih =>
    rcases List.mem_cons.mp h with h1 | h1
    · subst h1
      simp [lookupE]
    · by_cases h2 : hd.1 = e.1 ∧ hd.2.1 = e.2.1
      · simp [lookupE, h2]
      · simp only [lookupE, if_neg h2]
        exact ih h1

theorem lookupE_append_left {l1 l2 : List (Int × Int × Int)} {r c v : Int}
    (h : lookupE l1 r c = some v) :
    lookupE (l1 ++ l2) r c = some v := by
  induction l1 with
  | nil => simp [lookupE] at h
  | cons hd tl ih =>
    by_cases h1 : hd.1 = r ∧ hd.2.1 = c
    · simp only [lookupE, if_pos h1] at h
      simp only [List.cons_append, lookupE, if_pos h1]
      exact h
    · simp only [lookupE, if_neg h1] at h
      simp only [List.cons_append, lookupE, if_neg h1]
      exact ih h

theorem lookupE_append_right {l1 l2 : List (Int × Int × Int)} {r c : Int}
    (h : lookupE l1 r c = none) :
    lookupE (l1 ++ l2) r c = lookupE l2 r c := by
  induction l1 with
  | nil => simp [lookupE]
  | cons hd tl ih =>
    by_cases h1 : hd.1 = r ∧ hd.2.1 = c
    · simp [lookupE, h1] at h
    · simp only [lookupE, if_neg h1] at h
      simp only [List.cons_append, lookupE, if_neg h1]
      exact ih h

theorem lookupE_maprow (rw : List (Int × Int)) (r0 r c : Int) :
    lookupE (rw.map fun cv => ((r0, cv) : Int × Int × Int)) r c =
      if r0 = r then alookup rw c else none := by
  induction rw with
  | nil => simp [lookupE, alookup]
  | cons cv rest ih =>
    obtain ⟨c0, v0⟩ := cv
    by_cases hr : r0 = r
    · subst hr
      by_cases hc : c0 = c
      · simp [lookupE, alookup, hc]
      · simp [lookupE, alookup, hc, ih]
    · simp [lookupE, alookup, hr, ih, fun hx : r0 = r => hr hx]

namespace MainPy

theorem entryList_none {d : List (Int × List (Int × Int))} {r : Int}
    (h : alookup d r = none) (c : Int) :
    lookupE (entryList d) r c = none := by
  induction d with
  | nil => simp [entryList, lookupE]
  | cons hd rest ih =>
    obtain ⟨r0, rw0⟩ := hd
    by_cases h1 : r0 = r
    · simp [alookup, h1] at h
    · simp only [alookup, if_neg h1] at h
      simp only [entryList]
      rw [lookupE_append_right (by simp [lookupE_maprow, h1]), ih h]

theorem lookupE_entryList {m : SparseMatrix} (hnd : nodupKeys m.data)
    (r c : Int) : lookupE (entryList m.data) r c = stored m r c := by
  unfold stored
  generalize hd : m.data = d
  rw [hd] at hnd
  clear hd
  induction d with
  | nil => simp [entryList, lookupE, alookup]
  | cons hd rest ih =>
    obtain ⟨r0, rw0⟩ := hd
    simp only [entryList]
    by_cases h1 : r0 = r
    · subst h1
      cases h2 : alookup rw0 c with
      | some v =>
        have hmap : lookupE (rw0.map fun cv => ((r0, cv) : Int × Int × Int))
            r0 c = some v := by
          simp [lookupE_maprow, h2]
        rw [lookupE_append_left hmap]
        simp [alookup, h2]
      | none =>
        rw [lookupE_append_right (by simp [lookupE_maprow, h2])]
        rw [entryList_none hnd.1 c]
        simp [alookup, h2]
    · rw [lookupE_append_right (by simp [lookupE_maprow, h1])]
      rw [ih hnd.2]
      simp [alookup, h1]

theorem edistinct_append {l1 l2 : List (Int × Int × Int)}
    (h1 : edistinct l1) (h2 : edistinct l2)
    (hx : ∀ e ∈ l1, lookupE l2 e.1 e.2.1 = none) :
    edistinct (l1 ++ l2) := by
  induction l1 with
  | nil => exact h2
  | cons e tl ih =>
    rw [List.cons_append]
    refine ⟨?_, ih h1.2 fun e' he' => hx e' (List.mem_cons_of_mem _ he')⟩
    rw [lookupE_append_right h1.1]
    exact hx e (List.mem_cons_self _ _)

theorem edistinct_maprow {rw : List (Int × Int)} (r0 : Int)
    (hnd : nodupKeys rw) :
    edistinct (rw.map fun cv => ((r0, cv) : Int × Int × Int)) := by
  induction rw with
  | nil => trivial
  | cons cv rest ih =>
    obtain ⟨c0, v0⟩ := cv
    exact ⟨by simp [lookupE_maprow, hnd.1], ih hnd.2⟩

theorem edistinct_entryList {d : List (Int × List (Int × Int))}
    (hnd : nodupKeys d) (hin : ∀ rr ∈ d, nodupKeys rr.2) :
    edistinct (entryList d) := by
  induction d with
  | nil => trivial
  | cons hd rest ih =>
    obtain ⟨r0, rw0⟩ := hd
    simp only [entryList]
    refine edistinct_append (edistinct_maprow r0 (hin _ (List.mem_cons_self _ _)))
      (ih hnd.2 fun rr hrr => hin rr (List.mem_cons_of_mem _ hrr)) ?_
    intro e he
    rcases List.mem_map.mp he with ⟨cv, _, rfl⟩
    exact entryList_none hnd.1 cv.1

theorem mem_entryList {d : List (Int × List (Int × Int))} {e : Int × Int × Int}
    (h : e ∈ entryList d) :
    ∃ rw, (e.1, rw) ∈ d ∧ (e.2.1, e.2.2) ∈ rw := by
  induction d with
  | nil => simp [entryList] at h
  | cons hd rest ih =>
    obtain ⟨r0, rw0⟩ := hd
    simp only [entryList, List.mem_append] at h
    rcases h with h | h
    · rcases List.mem_map.mp h with ⟨cv, hcv, rfl⟩
      exact ⟨rw0, List.mem_cons_self _ _, hcv⟩
    · obtain ⟨rw, h1, h2⟩ := ih h
      exact ⟨rw, List.mem_cons_of_mem _ h1, h2⟩

theorem lookupE_swap (l : List (Int × Int × Int)) (r c : Int) :
    lookupE (swapEntries l) c r = lookupE l r c := by
  induction l with
  | nil => simp [swapEntries, lookupE]
  | cons e tl ih =>
    simp only [swapEntries, List.map_cons, lookupE]
    by_cases h1 : e.1 = r ∧ e.2.1 = c
    · rw [if_pos ⟨h1.2, h1.1⟩, if_pos h1]
    · rw [if_neg fun hc => h1 ⟨hc.2, hc.1⟩, if_neg h1]
      exact ih

theorem edistinct_swap {l : List (Int × Int × Int)} (h : edistinct l) :
    edistinct (swapEntries l) := by
  induction l with
  | nil => trivial
  | cons e tl ih =>
    refine ⟨?_, ih h.2⟩
    show lookupE (swapEntries tl) e.2.1 e.1 = none
    rw [lookupE_swap]
    exact h.1

/-! ## MainPy: building a matrix by a sequence of writes -/

theorem setList_build :
    ∀ (l : List (Int × Int × Int)) (m : SparseMatrix), wf m → edistinct l →
    (∀ e ∈ l, 0 ≤ e.1 ∧ e.1 < m.rows ∧ 0 ≤ e.2.1 ∧ e.2.1 < m.cols ∧
      e.2.2 ≠ 0) →
    (∀ e ∈ l, stored m e.1 e.2.1 = none) →
    ∃ m', setList m l = .ok m' ∧ wf m' ∧ m'.rows = m.rows ∧ m'.cols = m.cols ∧
      (∀ r c v, lookupE l r c = some v → stored m' r c = some v) ∧
      (∀ r c, lookupE l r c = none → stored m' r c = stored m r c) := by
  intro l
  induction l with
  | nil =>
    intro m hw _ _ _
    exact ⟨m, rfl, hw, rfl, rfl, fun r c v h => by simp [lookupE] at h,
      fun r c _ => rfl⟩
  | cons e rest ih =>
    intro m hw hdist hbounds hfresh
    obtain ⟨hb1, hb2, hb3, hb4, hb5⟩ := hbounds e (List.mem_cons_self _ _)
    obtain ⟨m1, h1⟩ := set_inb e.2.2 ⟨hb1, hb2, hb3, hb4⟩
    have hw1 := wf_set hw h1
    obtain ⟨hδr, hδc⟩ := set_dims h1
    have hself : stored m1 e.1 e.2.1 = some e.2.2 := by
      rw [stored_set_self hw h1, if_neg hb5]
    have hne : ∀ r c, ¬(e.1 = r ∧ e.2.1 = c) → stored m1 r c = stored m r c := by
      intro r c hc
      exact stored_set_ne hw h1 (by
        rcases not_and_or.mp hc with hc | hc
        · exact .inl fun hx => hc hx.symm
        · exact .inr fun hx => hc hx.symm)
    obtain ⟨m', hsl, hw', hr', hc', hsome, hnone⟩ := ih m1 hw1 hdist.2
      (fun e' he' => by
        have := hbounds e' (List.mem_cons_of_mem _ he')
        rw [hδr, hδc]
        exact this)
      (fun e' he' => by
        rw [hne e'.1 e'.2.1 (fun hcc =>
          lookupE_none_mem hdist.1 e' he' ⟨hcc.1.symm, hcc.2.symm⟩)]
        exact hfresh e' (List.mem_cons_of_mem _ he'))
    refine ⟨m', ?_, hw', hr'.trans hδr, hc'.trans hδc, ?_, ?_⟩
    · simp only [setList, h1]
      exact hsl
    · intro r c v hv
      by_cases hc : e.1 = r ∧ e.2.1 = c
      · simp only [lookupE, if_pos hc] at hv
        obtain ⟨hcr, hcc⟩ := hc
        subst hcr; subst hcc
        rw [hnone _ _ hdist.1, hself]
        exact hv
      · simp only [lookupE, if_neg hc] at hv
        exact hsome _ _ _ hv
    · intro r c hv
      by_cases hc : e.1 = r ∧ e.2.1 = c
      · simp [lookupE, hc] at hv
      · simp only [lookupE, if_neg hc] at hv
        rw [hnone _ _ hv, hne r c hc]

/-! ## MainPy: the `other`-entry loop of `_elementwise_operation` -/

theorem applyOther_spec (op : Int → Int → Int) :
    ∀ (l : List (Int × Int × Int)) (m : SparseMatrix), wf m → edistinct l →
    (∀ e ∈ l, 0 ≤ e.1 ∧ e.1 < m.rows ∧ 0 ≤ e.2.1 ∧ e.2.1 < m.cols) →
    ∃ m', applyOther op m l = .ok m' ∧ wf m' ∧ m'.rows = m.rows ∧
      m'.cols = m.cols ∧
      (∀ r c v, lookupE l r c = some v →
        get_element m' r c = op (get_element m r c) v) ∧
      (∀ r c, lookupE l r c = none →
        get_element m' r c = get_element m r c) := by
  intro l
  induction l with
  | nil =>
    intro m hw _ _
    exact ⟨m, rfl, hw, rfl, rfl, fun r c v h => by simp [lookupE] at h,
      fun r c _ => rfl⟩
  | cons e rest ih =>
    intro m hw hdist hbounds
    obtain ⟨hb1, hb2, hb3, hb4⟩ := hbounds e (List.mem_cons_self _ _)
    obtain ⟨m1, h1⟩ := set_inb (op (get_element m e.1 e.2.1) e.2.2)
      ⟨hb1, hb2, hb3, hb4⟩
    have hw1 := wf_set hw h1
    obtain ⟨hδr, hδc⟩ := set_dims h1
    have hself : get_element m1 e.1 e.2.1 = op (get_element m e.1 e.2.1) e.2.2 :=
      get_set_self hw h1
    have hne : ∀ r c, ¬(e.1 = r ∧ e.2.1 = c) →
        get_element m1 r c = get_element m r c := by
      intro r c hc
      exact get_set_ne hw h1 (by
        rcases not_and_or.mp hc with hc | hc
        · exact .inl fun hx => hc hx.symm
        · exact .inr fun hx => hc hx.symm)
    obtain ⟨m', hsl, hw', hr', hc', hsome, hnone⟩ := ih m1 hw1 hdist.2
      (fun e' he' => by
        have := hbounds e' (List.mem_cons_of_mem _ he')
        rw [hδr, hδc]
        exact this)
    refine ⟨m', ?_, hw', hr'.trans hδr, hc'.trans hδc, ?_, ?_⟩
    · simp only [applyOther, h1]
      exact hsl
    · intro r c v hv
      by_cases hc : e.1 = r ∧ e.2.1 = c
      · simp only [lookupE, if_pos hc] at hv
        obtain ⟨hcr, hcc⟩ := hc
        subst hcr; subst hcc
        simp only [Option.some.injEq] at hv
        rw [hnone _ _ hdist.1, hself, hv]
      · simp only [lookupE, if_neg hc] at hv
        rw [hsome _ _ _ hv, hne r c hc]
    · intro r c hv
      by_cases hc : e.1 = r ∧ e.2.1 = c
      · simp [lookupE, hc] at hv
      · simp only [lookupE, if_neg hc] at hv
        rw [hnone _ _ hv, hne r c hc]

/-! ## MainPy: specification of `_elementwise_operation` and `transpose` -/

theorem entry_bounds {A : SparseMatrix} (hw : wf A) :
    ∀ e ∈ entryList A.data, 0 ≤ e.1 ∧ e.1 < A.rows ∧ 0 ≤ e.2.1 ∧
      e.2.1 < A.cols ∧ e.2.2 ≠ 0 := by
  intro e he
  obtain ⟨rw, h1, h2⟩ := mem_entryList he
  have hp := hw.2 _ h1
  have hq := hp.2.2.1.2 _ h2
  exact ⟨hp.1, hp.2.1, hq.1, hq.2.1, hq.2.2⟩

theorem edistinct_entries {A : SparseMatrix} (hw : wf A) :
    edistinct (entryList A.data) :=
  edistinct_entryList hw.1 fun rr hrr => (hw.2 rr hrr).2.2.1.1

theorem elementwise_spec {A B : SparseMatrix} (op : Int → Int → Int)
    (hwA : wf A) (hwB : wf B) (hr : A.rows = B.rows) (hc : A.cols = B.cols)
    (hop : ∀ x : Int, op x 0 = x) :
    ∃ C, elementwise_operation A B op = .ok C ∧ wf C ∧ C.rows = A.rows ∧
      C.cols = A.cols ∧
      ∀ r c, get_element C r c =
        op (get_element A r c) (get_element B r c) := by
  have hguard : ¬((A.rows, A.cols) ≠ (B.rows, B.cols)) := by simp [hr, hc]
  obtain ⟨r1, hsl, hw1, hr1, hc1, hsome1, hnone1⟩ :=
    setList_build (entryList A.data) (mk A.rows A.cols) (wf_mk _ _)
      (edistinct_entries hwA) (fun e he => entry_bounds hwA e he)
      (fun e _ => stored_mk _ _ _ _)
  have hst : ∀ r c, stored r1 r c = stored A r c := by
    intro r c
    cases hA : stored A r c with
    | some v =>
      exact hsome1 r c v ((lookupE_entryList hwA.1 r c).trans hA)
    | none =>
      rw [hnone1 r c ((lookupE_entryList hwA.1 r c).trans hA)]
      exact stored_mk _ _ _ _
  have hget1 : ∀ r c, get_element r1 r c = get_element A r c := by
    intro r c
    rw [get_eq_stored, get_eq_stored, hst]
  obtain ⟨C, hao, hwC, hrC, hcC, hsome2, hnone2⟩ :=
    applyOther_spec op (entryList B.data) r1 hw1 (edistinct_entries hwB)
      (fun e he => by
        have h := entry_bounds hwB e he
        rw [hr1, hc1, hr, hc]
        exact ⟨h.1, h.2.1, h.2.2.1, h.2.2.2.1⟩)
  refine ⟨C, ?_, hwC, hrC.trans hr1, hcC.trans hc1, ?_⟩
  · unfold elementwise_operation
    rw [if_neg hguard, hsl]
    exact hao
  · intro r c
    cases hB : stored B r c with
    | some v =>
      have hgB : get_element B r c = v := by rw [get_eq_stored, hB]; rfl
      rw [hsome2 r c v ((lookupE_entryList hwB.1 r c).trans hB), hget1, hgB]
    | none =>
      have hgB : get_element B r c = 0 := by rw [get_eq_stored, hB]; rfl
      rw [hnone2 r c ((lookupE_entryList hwB.1 r c).trans hB), hget1, hgB,
        hop]

theorem transpose_spec {A : SparseMatrix} (hw : wf A) :
    ∃ T, transpose A = .ok T ∧ wf T ∧ T.rows = A.cols ∧ T.cols = A.rows ∧
      ∀ r c, stored T c r = stored A r c := by
  obtain ⟨T, hsl, hwT, hrT, hcT, hsome, hnone⟩ :=
    setList_build (swapEntries (entryList A.data)) (mk A.cols A.rows)
      (wf_mk _ _) (edistinct_swap (edistinct_entries hw))
      (fun e he => by
        rcases List.mem_map.mp he with ⟨e0, he0, rfl⟩
        have h := entry_bounds hw e0 he0
        exact ⟨h.2.2.1, h.2.2.2.1, h.1, h.2.1, h.2.2.2.2⟩)
      (fun e _ => stored_mk _ _ _ _)
  refine ⟨T, hsl, hwT, hrT, hcT, ?_⟩
  intro r c
  have hkey : lookupE (swapEntries (entryList A.data)) c r = stored A r c := by
    rw [lookupE_swap]
    exact lookupE_entryList hw.1 r c
  cases hA : stored A r c with
  | some v => exact hsome c r v (hkey.trans hA)
  | none =>
    rw [hnone c r (hkey.trans hA)]
    exact stored_mk _ _ _ _


/-! ## MainPy: specification of `multiply` -/

theorem accRow_rget (v1 : Int) :
    ∀ (orow rd : List (Int × Int)) (c : Int), nodupKeys orow →
    rget (accRow v1 rd orow) c = rget rd c + v1 * rget orow c := by
  intro orow
  induction orow with
  | nil => intro rd c _; simp [accRow, rget, alookup]
  | cons cv rest ih =>
    intro rd c hnd
    obtain ⟨c0, v0⟩ := cv
    simp only [accRow]
    rw [ih _ c hnd.2]
    by_cases hc : c = c0
    · subst hc
      have h1 : rget (aset rd c ((alookup rd c).getD 0 + v1 * v0)) c =
          rget rd c + v1 * v0 := by
        simp [rget, alookup_aset_self]
      have h2 : rget rest c = 0 := by simp [rget, hnd.1]
      have h3 : rget ((c, v0) :: rest) c = v0 := by simp [rget, alookup]
      rw [h1, h2, h3]
      ring
    · have h1 : rget (aset rd c0 ((alookup rd c0).getD 0 + v1 * v0)) c =
          rget rd c := by
        simp [rget, alookup_aset_ne _ _ hc]
      have h3 : rget ((c0, v0) :: rest) c = rget rest c := by
        simp [rget, alookup, Ne.symm hc]
      rw [h1, h3]

theorem accRow_nodup (v1 : Int) :
    ∀ (orow rd : List (Int × Int)), nodupKeys rd →
    nodupKeys (accRow v1 rd orow) := by
  intro orow
  induction orow with
  | nil => intro rd h; exact h
  | cons cv rest ih =>
    intro rd h
    exact ih _ (nodupKeys_aset h)

theorem accRow_keys (v1 : Int) :
    ∀ (orow rd : List (Int × Int)) (c : Int),
    alookup (accRow v1 rd orow) c ≠ none →
    alookup rd c ≠ none ∨ alookup orow c ≠ none := by
  intro orow
  induction orow with
  | nil => intro rd c h; exact .inl h
  | cons cv rest ih =>
    intro rd c h
    obtain ⟨c0, v0⟩ := cv
    simp only [accRow] at h
    rcases ih _ c h with h1 | h1
    · by_cases hc : c = c0
      · subst hc
        exact .inr (by simp [alookup])
      · rw [alookup_aset_ne _ _ hc] at h1
        exact .inl h1
    · exact .inr (by
        simp only [alookup]
        by_cases hc : c0 = c
        · simp [hc]
        · simpa [hc] using h1)

theorem buildRowData_rget {B : SparseMatrix} (hwB : wf B) :
    ∀ (arow rd : List (Int × Int)) (c : Int),
    rget (buildRowData B rd arow) c =
      rget rd c + (arow.map fun kv => kv.2 * get_element B kv.1 c).sum := by
  intro arow
  induction arow with
  | nil => intro rd c; simp [buildRowData]
  | cons kv rest ih =>
    intro rd c
    simp only [buildRowData]
    cases h1 : alookup B.data kv.1 with
    | none =>
      rw [ih]
      have : get_element B kv.1 c = 0 := by
        simp [get_element, h1, alookup]
      simp only [List.map_cons, List.sum_cons, this]
      ring
    | some orow =>
      rw [ih]
      have hnd : nodupKeys orow := ((hwB.2 _ (alookup_mem h1)).2.2.1).1
      rw [accRow_rget _ _ _ _ hnd]
      have : get_element B kv.1 c = rget orow c := by
        simp [get_element, h1, rget]
      simp only [List.map_cons, List.sum_cons, this]
      ring

theorem buildRowData_nodup {B : SparseMatrix} :
    ∀ (arow rd : List (Int × Int)), nodupKeys rd →
    nodupKeys (buildRowData B rd arow) := by
  intro arow
  induction arow with
  | nil => intro rd h; exact h
  | cons kv rest ih =>
    intro rd h
    simp only [buildRowData]
    cases h1 : alookup B.data kv.1 with
    | none => exact ih _ h
    | some orow => exact ih _ (accRow_nodup _ _ _ h)

theorem buildRowData_keys {B : SparseMatrix} (hwB : wf B) :
    ∀ (arow rd : List (Int × Int)),
    (∀ c, alookup rd c ≠ none → 0 ≤ c ∧ c < B.cols) →
    ∀ c, alookup (buildRowData B rd arow) c ≠ none → 0 ≤ c ∧ c < B.cols := by
  intro arow
  induction arow with
  | nil => intro rd h c hc; exact h c hc
  | cons kv rest ih =>
    intro rd h c hc
    simp only [buildRowData] at hc
    cases h1 : alookup B.data kv.1 with
    | none =>
      rw [h1] at hc
      exact ih _ h c hc
    | some orow =>
      rw [h1] at hc
      refine ih _ ?_ c hc
      intro c' hc'
      rcases accRow_keys _ _ _ _ hc' with h2 | h2
      · exact h c' h2
      · cases h3 : alookup orow c' with
        | none => exact absurd h3 h2
        | some w =>
          have := ((hwB.2 _ (alookup_mem h1)).2.2.1).2 _ (alookup_mem h3)
          exact ⟨this.1, this.2.1⟩

theorem writeRow_spec :
    ∀ (rdl : List (Int × Int)) (acc : SparseMatrix) (row : Int),
    wf acc → nodupKeys rdl → 0 ≤ row → row < acc.rows →
    (∀ cv ∈ rdl, 0 ≤ cv.1 ∧ cv.1 < acc.cols) →
    (∀ cv ∈ rdl, stored acc row cv.1 = none) →
    ∃ acc', writeRow row acc rdl = .ok acc' ∧ wf acc' ∧
      acc'.rows = acc.rows ∧ acc'.cols = acc.cols ∧
      (∀ c, alookup rdl c ≠ none → get_element acc' row c = rget rdl c) ∧
      (∀ c, alookup rdl c = none → stored acc' row c = stored acc row c) ∧
      (∀ r' c, r' ≠ row → stored acc' r' c = stored acc r' c) := by
  intro rdl
  induction rdl with
  | nil =>
    intro acc row hw _ _ _ _ _
    exact ⟨acc, rfl, hw, rfl, rfl, fun c hc => absurd rfl hc,
      fun c _ => rfl, fun r' c _ => rfl⟩
  | cons cv rest ih =>
    intro acc row hw hnd hr0 hr1 hbounds hfresh
    obtain ⟨c0, v0⟩ := cv
    obtain ⟨hc0, hc1⟩ := hbounds (c0, v0) (List.mem_cons_self _ _)
    obtain ⟨a1, h1⟩ := set_inb v0 ⟨hr0, hr1, hc0, hc1⟩
    have hw1 := wf_set hw h1
    obtain ⟨hδr, hδc⟩ := set_dims h1
    have hget : get_element a1 row c0 = v0 := get_set_self hw h1
    have hoff : ∀ r' c, r' ≠ row ∨ c ≠ c0 → stored a1 r' c = stored acc r' c :=
      fun r' c hne => stored_set_ne hw h1 hne
    obtain ⟨acc', hrun, hw', hr', hc', hkey, hnokey, hrow'⟩ := ih a1 row hw1
      hnd.2 hr0 (hδr ▸ hr1)
      (fun cv' hcv' => by
        rw [hδc]
        exact hbounds cv' (List.mem_cons_of_mem _ hcv'))
      (fun cv' hcv' => by
        have hne : cv'.1 ≠ c0 := by
          intro hx
          have hmem : (cv'.1, cv'.2) ∈ rest := hcv'
          rw [hx] at hmem
          exact alookup_isSome_of_mem hmem hnd.1
        rw [hoff row cv'.1 (.inr hne)]
        exact hfresh cv' (List.mem_cons_of_mem _ hcv'))
    refine ⟨acc', ?_, hw', hr'.trans hδr, hc'.trans hδc, ?_, ?_, ?_⟩
    · simp only [writeRow, h1]
      exact hrun
    · intro c hc
      by_cases hcc : c = c0
      · subst hcc
        have h2 : alookup rest c = none := hnd.1
        have h3 : stored acc' row c = stored a1 row c := hnokey c h2
        have h4 : get_element acc' row c = get_element a1 row c := by
          rw [get_eq_stored, get_eq_stored, h3]
        rw [h4, hget]
        simp [rget, alookup]
      · have hlk : alookup ((c0, v0) :: rest) c = alookup rest c := by
          simp [alookup, Ne.symm hcc]
        rw [hlk] at hc
        have hrg : rget ((c0, v0) :: rest) c = rget rest c := by
          simp [rget, alookup, Ne.symm hcc]
        rw [hrg]
        exact hkey c hc
    · intro c hc
      by_cases hcc : c = c0
      · subst hcc
        simp [alookup] at hc
      · have hlk : alookup ((c0, v0) :: rest) c = alookup rest c := by
          simp [alookup, Ne.symm hcc]
        rw [hlk] at hc
        rw [hnokey c hc, hoff row c (.inr hcc)]
    · intro r' c hne
      rw [hrow' r' c hne, hoff r' c (.inl hne)]

theorem multiplyRows_spec {B : SparseMatrix} (hwB : wf B) :
    ∀ (dl : List (Int × List (Int × Int))) (acc : SparseMatrix),
    wf acc → nodupKeys dl → acc.cols = B.cols →
    (∀ rr ∈ dl, 0 ≤ rr.1 ∧ rr.1 < acc.rows) →
    (∀ rr ∈ dl, ∀ c, stored acc rr.1 c = none) →
    ∃ acc', multiplyRows B acc dl = .ok acc' ∧ wf acc' ∧
      acc'.rows = acc.rows ∧ acc'.cols = acc.cols ∧
      (∀ r c arow, alookup dl r = some arow →
        get_element acc' r c = rget (buildRowData B [] arow) c) ∧
      (∀ r c, alookup dl r = none → stored acc' r c = stored acc r c) := by
  intro dl
  induction dl with
  | nil =>
    intro acc hw _ _ _ _
    exact ⟨acc, rfl, hw, rfl, rfl,
      fun r c arow h => by simp [alookup] at h, fun r c _ => rfl⟩
  | cons rr rest ih =>
    intro acc hw hnd hcols hrows hfresh
    obtain ⟨r0, arow0⟩ := rr
    obtain ⟨hr0, hr1⟩ := hrows (r0, arow0) (List.mem_cons_self _ _)
    have hfresh0 : ∀ c, stored acc r0 c = none :=
      hfresh (r0, arow0) (List.mem_cons_self _ _)
    obtain ⟨a1, h1, hw1, hδr, hδc, hkey, hnokey, hrow1⟩ :=
      writeRow_spec (buildRowData B [] arow0) acc r0 hw
        (buildRowData_nodup _ _ trivial) hr0 hr1
        (fun cv hcv => by
          have h := buildRowData_keys hwB arow0 []
            (fun c hc => by simp [alookup] at hc) cv.1
            (alookup_isSome_of_mem hcv)
          rw [hcols]
          exact h)
        (fun cv _ => hfresh0 cv.1)
    obtain ⟨acc', hrun, hw', hr', hc', hsome, hnone⟩ := ih a1 hw1 hnd.2
      (hδc.trans hcols)
      (fun rr' hrr' => by
        rw [hδr]
        exact hrows rr' (List.mem_cons_of_mem _ hrr'))
      (fun rr' hrr' c => by
        have hne : rr'.1 ≠ r0 := by
          intro hx
          have hmem : (rr'.1, rr'.2) ∈ rest := hrr'
          rw [hx] at hmem
          exact alookup_isSome_of_mem hmem hnd.1
        rw [hrow1 rr'.1 c hne]
        exact hfresh rr' (List.mem_cons_of_mem _ hrr') c)
    refine ⟨acc', ?_, hw', hr'.trans hδr, hc'.trans hδc, ?_, ?_⟩
    · simp only [multiplyRows, h1]
      exact hrun
    · intro r c arow halk
      by_cases hrr : r0 = r
      · subst hrr
        simp [alookup] at halk
        subst halk
        have h2 : alookup rest r0 = none := hnd.1
        have h3 : stored acc' r0 c = stored a1 r0 c := hnone r0 c h2
        have h4 : get_element acc' r0 c = get_element a1 r0 c := by
          rw [get_eq_stored, get_eq_stored, h3]
        rw [h4]
        cases hc2 : alookup (buildRowData B [] arow0) c with
        | some w =>
          exact hkey c (by simp [hc2])
        | none =>
          have h5 : stored a1 r0 c = none := by
            rw [hnokey c hc2]
            exact hfresh0 c
          rw [get_eq_stored, h5]
          simp [rget, hc2]
      · simp only [alookup, if_neg hrr] at halk
        exact hsome r c arow halk
    · intro r c halk
      simp only [alookup] at halk
      by_cases hrr : r0 = r
      · simp [hrr] at halk
      · rw [if_neg hrr] at halk
        rw [hnone r c halk, hrow1 r c fun hx => hrr hx.symm]

theorem sum_assoc_range (f : Int → Int) :
    ∀ (arow : List (Int × Int)) (n : Int), nodupKeys arow →
    (∀ kv ∈ arow, 0 ≤ kv.1 ∧ kv.1 < n) →
    (arow.map fun kv => kv.2 * f kv.1).sum =
      Finset.sum (Finset.range n.toNat)
        (fun k => rget arow (k : Int) * f (k : Int)) := by
  intro arow
  induction arow with
  | nil =>
    intro n _ _
    simp [rget, alookup]
  | cons kv rest ih =>
    intro n hnd hbounds
    obtain ⟨k0, v0⟩ := kv
    obtain ⟨hk00, hk0n⟩ := hbounds (k0, v0) (List.mem_cons_self _ _)
    have hmem : k0.toNat ∈ Finset.range n.toNat :=
      Finset.mem_range.mpr ((Int.toNat_lt_toNat (lt_of_le_of_lt hk00 hk0n)).mpr hk0n)
    have hcast : ((k0.toNat : Nat) : Int) = k0 := Int.toNat_of_nonneg hk00
    have hsplit := (Finset.add_sum_erase (Finset.range n.toNat)
      (fun k => rget ((k0, v0) :: rest) (k : Int) * f (k : Int)) hmem).symm
    have hsplit' := (Finset.add_sum_erase (Finset.range n.toNat)
      (fun k => rget rest (k : Int) * f (k : Int)) hmem).symm
    have hat : rget ((k0, v0) :: rest) ((k0.toNat : Nat) : Int) *
        f ((k0.toNat : Nat) : Int) = v0 * f k0 := by
      rw [hcast]
      simp [rget, alookup]
    have hat' : rget rest ((k0.toNat : Nat) : Int) *
        f ((k0.toNat : Nat) : Int) = 0 := by
      rw [hcast]
      simp [rget, hnd.1]
    have hagree : Finset.sum ((Finset.range n.toNat).erase k0.toNat)
          (fun k => rget ((k0, v0) :: rest) (k : Int) * f (k : Int)) =
        Finset.sum ((Finset.range n.toNat).erase k0.toNat)
          (fun k => rget rest (k : Int) * f (k : Int)) := by
      refine Finset.sum_congr rfl ?_
      intro x hx
      have hxne : x ≠ k0.toNat := (Finset.mem_erase.mp hx).1
      have hne2 : ¬(k0 = (x : Int)) := by
        intro hc
        apply hxne
        have h6 := congrArg Int.toNat hc
        rw [Int.toNat_natCast] at h6
        exact h6.symm
      simp [rget, alookup, hne2]
    rw [List.map_cons, List.sum_cons, hsplit, hat, hagree,
      ih n hnd.2 (fun kv' hkv' => hbounds kv' (List.mem_cons_of_mem _ hkv')),
      hsplit', hat']
    ring

theorem multiply_spec {A B : SparseMatrix} (hwA : wf A) (hwB : wf B)
    (hAB : A.cols = B.rows) :
    ∃ C, multiply A B = .ok C ∧ C.rows = A.rows ∧ C.cols = B.cols ∧
      ∀ r c, get_element C r c = dotSum A B r c := by
  obtain ⟨C, hrun, hwC, hrC, hcC, hsome, hnone⟩ :=
    multiplyRows_spec hwB A.data (mk A.rows B.cols) (wf_mk _ _) hwA.1 rfl
      (fun rr hrr => ⟨(hwA.2 rr hrr).1, (hwA.2 rr hrr).2.1⟩)
      (fun rr _ c => stored_mk _ _ _ _)
  refine ⟨C, ?_, hrC, hcC, ?_⟩
  · unfold multiply
    rw [if_neg (by simp [hAB])]
    exact hrun
  · intro r c
    cases halk : alookup A.data r with
    | some arow =>
      rw [hsome r c arow halk, buildRowData_rget hwB]
      have hnd : nodupKeys arow := ((hwA.2 _ (alookup_mem halk)).2.2.1).1
      have hbnd : ∀ kv ∈ arow, 0 ≤ kv.1 ∧ kv.1 < A.cols := by
        intro kv hkv
        have := ((hwA.2 _ (alookup_mem halk)).2.2.1).2 _ hkv
        exact ⟨this.1, this.2.1⟩
      rw [sum_assoc_range (fun k => get_element B k c) arow A.cols hnd hbnd]
      have hrg : ∀ k : Int, rget arow k = get_element A r k := by
        intro k
        simp [get_element, halk, rget]
      unfold dotSum
      have : rget [] c = 0 := by simp [rget, alookup]
      rw [this, zero_add]
      refine Finset.sum_congr rfl ?_
      intro k _
      rw [hrg]
    | none =>
      have h1 : stored C r c = none := by
        rw [hnone r c halk]
        exact stored_mk _ _ _ _
      rw [get_eq_stored, h1]
      have h2 : ∀ k : Int, get_element A r k = 0 := by
        intro k
        simp [get_element, halk, alookup]
      unfold dotSum
      rw [Finset.sum_eq_zero]
      · rfl
      · intro k _
        rw [h2, zero_mul]

end MainPy



/-! ## Claim theorems -/

/-- C1 (amended): in the nested-dictionary implementation (`main.py`), for
every well-formed matrix and in-bounds position, `set_element(row, col, 0)`
succeeds and leaves no entry stored at `(row, col)` (a no-op when none
existed), and after any sequence of successful `set_element` calls the matrix
is still well-formed, so no stored entry ever has value exactly zero.  (The
pair-keyed implementation stores the assigned value unconditionally, zero
included — see the counterexample.) -/
theorem C1_main_zero_removes_and_no_zero_stored (m : MainPy.SparseMatrix)
    (row col : Int) (hw : MainPy.wf m) (hb : MainPy.inBounds m row col) :
    (∃ m', MainPy.set_element m row col 0 = .ok m' ∧
      MainPy.stored m' row col = none) ∧
    (∀ ops m'', MainPy.setList m ops = .ok m'' →
      MainPy.wf m'' ∧ ∀ r c v, MainPy.stored m'' r c = some v → v ≠ 0) := by
  constructor
  · obtain ⟨m', h⟩ := MainPy.set_inb 0 hb
    refine ⟨m', h, ?_⟩
    rw [MainPy.stored_set_self hw h]
    simp
  · intro ops m'' hrun
    have hw'' := MainPy.setList_wf hw hrun
    exact ⟨hw'', fun r c v hs => (MainPy.stored_some hw'' hs).2⟩

/-- C1 witness: concrete instance of the amended claim at a 1×1 matrix
holding the value 5 at (0, 0). -/
theorem C1_witness :
    MainPy.wf ⟨[(0, [(0, 5)])], 1, 1, 1⟩ ∧
    MainPy.inBounds ⟨[(0, [(0, 5)])], 1, 1, 1⟩ 0 0 ∧
    ((∃ m', MainPy.set_element ⟨[(0, [(0, 5)])], 1, 1, 1⟩ 0 0 0 = .ok m' ∧
      MainPy.stored m' 0 0 = none) ∧
    (∀ ops m'', MainPy.setList ⟨[(0, [(0, 5)])], 1, 1, 1⟩ ops = .ok m'' →
      MainPy.wf m'' ∧ ∀ r c v, MainPy.stored m'' r c = some v → v ≠ 0)) :=
  ⟨by decide, by decide,
    C1_main_zero_removes_and_no_zero_stored _ 0 0 (by decide) (by decide)⟩

/-- C1 counterexample: in the pair-keyed implementation (`sparse_matrix.py`),
`set_element(0, 0, 0)` on an empty 1×1 matrix stores an entry with value
exactly 0 instead of removing it, refuting the claim as stated. -/
theorem C1_cex_pair_stores_zero :
    (PairM.set_element ⟨1, 1, []⟩ 0 0 0).data = [((0, 0), 0)] ∧
    alookup (PairM.set_element ⟨1, 1, []⟩ 0 0 0).data (0, 0) = some 0 := by
  decide

/-- C2: evaluation at the spec's own end-to-end example (A = 2×2 with
{(0,0):1, (1,1):2}, B = 2×2 with {(0,0):3, (0,1):4}).  The pair-keyed
implementation's `add` iterates only `self.data`, so the result lacks the
position (0, 1) that is populated only in B: `get_element(0, 1)` on the
result returns 0 although `A.get(0,1) + B.get(0,1) = 0 + 4 = 4`.  The
nested-dictionary implementation returns the correct 4 on the same input. -/
theorem C2_pair_add_drops_other_entries :
    PairM.add ⟨2, 2, [((0, 0), 1), ((1, 1), 2)]⟩
        ⟨2, 2, [((0, 0), 3), ((0, 1), 4)]⟩ =
      .ok ⟨2, 2, [((0, 0), 4), ((1, 1), 2)]⟩ ∧
    PairM.get_element ⟨2, 2, [((0, 0), 4), ((1, 1), 2)]⟩ 0 1 = .ok 0 ∧
    PairM.get_element ⟨2, 2, [((0, 0), 1), ((1, 1), 2)]⟩ 0 1 = .ok 0 ∧
    PairM.get_element ⟨2, 2, [((0, 0), 3), ((0, 1), 4)]⟩ 0 1 = .ok 4 ∧
    MainPy.add ⟨[(0, [(0, 1)]), (1, [(1, 2)])], 2, 2, 2⟩
        ⟨[(0, [(0, 3), (1, 4)])], 2, 2, 2⟩ =
      .ok ⟨[(0, [(0, 4), (1, 4)]), (1, [(1, 2)])], 2, 2, 4⟩ ∧
    MainPy.get_element ⟨[(0, [(0, 4), (1, 4)]), (1, [(1, 2)])], 2, 2, 4⟩ 0 1
      = 4 :=
  ⟨rfl, rfl, rfl, rfl, rfl, rfl⟩

/-- C3 (amended): the two implementations each check bounds in only one
accessor.  In the nested-dictionary implementation `set_element` raises
`MatrixIndexError` for every out-of-bounds position while `get_element`
performs no bounds check and returns 0 (with no side effect — it is a pure
function of the matrix); in the pair-keyed implementation `get_element`
raises `IndexError` for every out-of-bounds position while `set_element`
performs no bounds check and stores the binding unconditionally. -/
theorem C3_bounds_amended (m : MainPy.SparseMatrix) (p : PairM.SparseMatrix)
    (row col prow pcol : Int) (hw : MainPy.wf m)
    (hm : ¬ MainPy.inBounds m row col) (hp : ¬ PairM.inBounds p prow pcol) :
    (∀ v, MainPy.set_element m row col v = .error .indexOutOfBounds) ∧
    MainPy.get_element m row col = 0 ∧
    PairM.get_element p prow pcol = .error (.indexError "Index out of bounds.") ∧
    (∀ r c v, alookup (PairM.set_element p r c v).data (r, c) = some v) := by
  refine ⟨fun v => MainPy.set_oob v hm, ?_, PairM.get_oob hp,
    fun r c v => PairM.set_data p r c v⟩
  rw [MainPy.get_eq_stored]
  cases hs : MainPy.stored m row col with
  | none => rfl
  | some v => exact absurd (MainPy.stored_some hw hs).1 hm

/-- C3 witness: concrete out-of-bounds accesses on empty 2×2 matrices. -/
theorem C3_witness :
    MainPy.wf ⟨[], 2, 2, 0⟩ ∧
    ¬ MainPy.inBounds ⟨[], 2, 2, 0⟩ (-1) 0 ∧
    ¬ PairM.inBounds ⟨2, 2, []⟩ 2 0 ∧
    ((∀ v, MainPy.set_element ⟨[], 2, 2, 0⟩ (-1) 0 v =
        .error .indexOutOfBounds) ∧
    MainPy.get_element ⟨[], 2, 2, 0⟩ (-1) 0 = 0 ∧
    PairM.get_element ⟨2, 2, []⟩ 2 0 = .error (.indexError "Index out of bounds.") ∧
    (∀ r c v, alookup (PairM.set_element ⟨2, 2, []⟩ r c v).data (r, c) = some v)) :=
  ⟨by decide, by decide, by decide,
    C3_bounds_amended _ _ (-1) 0 2 0 (by decide) (by decide) (by decide)⟩

/-- C3 counterexample: the claim says out-of-bounds `get_element` fails with
an IndexError in both implementations, but the nested-dictionary
implementation's `get_element(-1, 0)` on a 2×2 matrix returns 0 — its model
is a total function with no error path. -/
theorem C3_cex_main_get_returns_zero :
    MainPy.get_element ⟨[(0, [(0, 5)])], 2, 2, 1⟩ (-1) 0 = 0 ∧
    ¬ MainPy.inBounds ⟨[(0, [(0, 5)])], 2, 2, 1⟩ (-1) 0 := by
  decide

/-- C4: for compatible operands, `multiply` in both implementations returns a
matrix of dimensions `self.rows × other.cols` in which every in-bounds
position holds the sum over k of `self.get_element(r, k) *
other.get_element(k, c)` (for the nested-dictionary implementation under the
well-formedness invariant every reachable matrix satisfies). -/
theorem C4_multiply_correct (A B : MainPy.SparseMatrix)
    (P Q : PairM.SparseMatrix) (hwA : MainPy.wf A) (hwB : MainPy.wf B)
    (hAB : A.cols = B.rows) (hPQ : P.cols = Q.rows) :
    (∃ C, MainPy.multiply A B = .ok C ∧ C.rows = A.rows ∧ C.cols = B.cols ∧
      ∀ r c, MainPy.get_element C r c = MainPy.dotSum A B r c) ∧
    (∃ R, PairM.multiply P Q = .ok R ∧ R.rows = P.rows ∧ R.cols = Q.cols ∧
      ∀ r c, PairM.inBounds R r c →
        PairM.get_element R r c = .ok (PairM.dotSumP P Q r c)) ∧
    (∀ r k, PairM.inBounds P r k →
      PairM.get_element P r k = .ok (PairM.getRaw P r k)) :=
  ⟨MainPy.multiply_spec hwA hwB hAB, PairM.pair_multiply_spec hPQ,
    fun _ _ h => PairM.get_inb h⟩

/-- C4 witness: 1×1 matrices with entries 2 and 3 in both implementations. -/
theorem C4_witness :
    MainPy.wf ⟨[(0, [(0, 2)])], 1, 1, 1⟩ ∧
    MainPy.wf ⟨[(0, [(0, 3)])], 1, 1, 1⟩ ∧
    (⟨[(0, [(0, 2)])], 1, 1, 1⟩ : MainPy.SparseMatrix).cols =
      (⟨[(0, [(0, 3)])], 1, 1, 1⟩ : MainPy.SparseMatrix).rows ∧
    (⟨1, 1, [((0, 0), 2)]⟩ : PairM.SparseMatrix).cols =
      (⟨1, 1, [((0, 0), 3)]⟩ : PairM.SparseMatrix).rows ∧
    ((∃ C, MainPy.multiply ⟨[(0, [(0, 2)])], 1, 1, 1⟩ ⟨[(0, [(0, 3)])], 1, 1, 1⟩
        = .ok C ∧ C.rows = 1 ∧ C.cols = 1 ∧
      ∀ r c, MainPy.get_element C r c =
        MainPy.dotSum ⟨[(0, [(0, 2)])], 1, 1, 1⟩ ⟨[(0, [(0, 3)])], 1, 1, 1⟩ r c) ∧
    (∃ R, PairM.multiply ⟨1, 1, [((0, 0), 2)]⟩ ⟨1, 1, [((0, 0), 3)]⟩ = .ok R ∧
      R.rows = 1 ∧ R.cols = 1 ∧
      ∀ r c, PairM.inBounds R r c →
        PairM.get_element R r c =
          .ok (PairM.dotSumP ⟨1, 1, [((0, 0), 2)]⟩ ⟨1, 1, [((0, 0), 3)]⟩ r c)) ∧
    (∀ r k, PairM.inBounds (⟨1, 1, [((0, 0), 2)]⟩ : PairM.SparseMatrix) r k →
      PairM.get_element ⟨1, 1, [((0, 0), 2)]⟩ r k =
        .ok (PairM.getRaw ⟨1, 1, [((0, 0), 2)]⟩ r k))) :=
  ⟨by decide, by decide, by decide, by decide,
    C4_multiply_correct _ _ _ _ (by decide) (by decide) (by decide) (by decide)⟩

/-- C5: `add` and `subtract` fail whenever the operands differ in row count
or column count, and `multiply` fails whenever `self.cols ≠ other.rows`; the
error value is a distinguishable kind in each implementation
(`MatrixDimensionError` in `main.py`, `ValueError` with a dedicated message
in `sparse_matrix.py`), distinct from the out-of-bounds error. -/
theorem C5_dimension_mismatch_errors (A B : MainPy.SparseMatrix)
    (P Q : PairM.SparseMatrix) :
    ((A.rows ≠ B.rows ∨ A.cols ≠ B.cols) →
      MainPy.add A B = .error .dimensionMismatch ∧
      MainPy.subtract A B = .error .dimensionMismatch) ∧
    (A.cols ≠ B.rows → MainPy.multiply A B = .error .dimensionMismatch) ∧
    ((P.rows ≠ Q.rows ∨ P.cols ≠ Q.cols) →
      PairM.add P Q =
        .error (.valueError "Matrices must have the same dimensions for addition.") ∧
      PairM.subtract P Q =
        .error (.valueError "Matrices must have the same dimensions for subtraction.")) ∧
    (P.cols ≠ Q.rows → PairM.multiply P Q =
      .error (.valueError
        "Matrix multiplication requires first matrix's columns to match second matrix's rows.")) ∧
    MainPy.Err.dimensionMismatch ≠ MainPy.Err.indexOutOfBounds ∧
    (∀ msg msg' : String, PairM.Err.valueError msg ≠ PairM.Err.indexError msg') := by
  refine ⟨?_, ?_, ?_, ?_, by decide, fun msg msg' h => PairM.Err.noConfusion h⟩
  · intro h
    have hpair : (A.rows, A.cols) ≠ (B.rows, B.cols) := by
      intro hc
      rw [Prod.mk.injEq] at hc
      rcases h with h | h
      · exact h hc.1
      · exact h hc.2
    constructor
    · unfold MainPy.add MainPy.elementwise_operation
      rw [if_pos hpair]
    · unfold MainPy.subtract MainPy.elementwise_operation
      rw [if_pos hpair]
  · intro h
    unfold MainPy.multiply
    rw [if_pos h]
  · intro h
    constructor
    · unfold PairM.add
      rw [if_pos h]
    · unfold PairM.subtract
      rw [if_pos h]
  · intro h
    unfold PairM.multiply
    rw [if_pos h]

/-- C5 witness: the spec's exemplars — adding a 2×3 to a 3×2 matrix fails,
and multiplying a 2×3 by a 4×2 matrix fails (3 ≠ 4), in both
implementations. -/
theorem C5_witness :
    ((2 : Int) ≠ 3 ∨ (3 : Int) ≠ 2) ∧
    ((3 : Int) ≠ 4) ∧
    MainPy.add ⟨[], 2, 3, 0⟩ ⟨[], 3, 2, 0⟩ = .error .dimensionMismatch ∧
    MainPy.subtract ⟨[], 2, 3, 0⟩ ⟨[], 3, 2, 0⟩ = .error .dimensionMismatch ∧
    MainPy.multiply ⟨[], 2, 3, 0⟩ ⟨[], 4, 2, 0⟩ = .error .dimensionMismatch ∧
    PairM.add ⟨2, 3, []⟩ ⟨3, 2, []⟩ =
      .error (.valueError "Matrices must have the same dimensions for addition.") ∧
    PairM.subtract ⟨2, 3, []⟩ ⟨3, 2, []⟩ =
      .error (.valueError "Matrices must have the same dimensions for subtraction.") ∧
    PairM.multiply ⟨2, 3, []⟩ ⟨4, 2, []⟩ =
      .error (.valueError
        "Matrix multiplication requires first matrix's columns to match second matrix's rows.") :=
  ⟨by decide, by decide,
    (C5_dimension_mismatch_errors ⟨[], 2, 3, 0⟩ ⟨[], 3, 2, 0⟩ ⟨2, 3, []⟩
      ⟨3, 2, []⟩).1 (by decide) |>.1,
    (C5_dimension_mismatch_errors ⟨[], 2, 3, 0⟩ ⟨[], 3, 2, 0⟩ ⟨2, 3, []⟩
      ⟨3, 2, []⟩).1 (by decide) |>.2,
    (C5_dimension_mismatch_errors ⟨[], 2, 3, 0⟩ ⟨[], 4, 2, 0⟩ ⟨2, 3, []⟩
      ⟨4, 2, []⟩).2.1 (by decide),
    (C5_dimension_mismatch_errors ⟨[], 2, 3, 0⟩ ⟨[], 3, 2, 0⟩ ⟨2, 3, []⟩
      ⟨3, 2, []⟩).2.2.1 (by decide) |>.1,
    (C5_dimension_mismatch_errors ⟨[], 2, 3, 0⟩ ⟨[], 3, 2, 0⟩ ⟨2, 3, []⟩
      ⟨3, 2, []⟩).2.2.1 (by decide) |>.2,
    (C5_dimension_mismatch_errors ⟨[], 2, 3, 0⟩ ⟨[], 3, 2, 0⟩ ⟨2, 3, []⟩
      ⟨4, 2, []⟩).2.2.2.1 (by decide)⟩

/-- C6: `transpose` (nested-dictionary implementation, the only one that has
it) returns a fresh matrix with `rows` and `cols` swapped in which entry
(row, col, value) appears as (col, row, value), and transposing twice gives
back a matrix with exactly the dimensions and stored entries of the
original. -/
theorem C6_transpose_involution (A : MainPy.SparseMatrix)
    (hw : MainPy.wf A) :
    ∃ T, MainPy.transpose A = .ok T ∧ T.rows = A.cols ∧ T.cols = A.rows ∧
      (∀ r c, MainPy.stored T c r = MainPy.stored A r c) ∧
      ∃ T2, MainPy.transpose T = .ok T2 ∧ T2.rows = A.rows ∧
        T2.cols = A.cols ∧
        ∀ r c, MainPy.stored T2 r c = MainPy.stored A r c := by
  obtain ⟨T, h1, hwT, hr, hc, hst⟩ := MainPy.transpose_spec hw
  obtain ⟨T2, h2, _, hr2, hc2, hst2⟩ := MainPy.transpose_spec hwT
  exact ⟨T, h1, hr, hc, hst, T2, h2, hr2.trans hc, hc2.trans hr,
    fun r c => (hst2 c r).trans (hst r c)⟩

/-- C6 witness: a 2×3 matrix with a single entry 7 at (0, 1). -/
theorem C6_witness :
    MainPy.wf ⟨[(0, [(1, 7)])], 2, 3, 1⟩ ∧
    (∃ T, MainPy.transpose ⟨[(0, [(1, 7)])], 2, 3, 1⟩ = .ok T ∧
      T.rows = 3 ∧ T.cols = 2 ∧
      (∀ r c, MainPy.stored T c r =
        MainPy.stored ⟨[(0, [(1, 7)])], 2, 3, 1⟩ r c) ∧
      ∃ T2, MainPy.transpose T = .ok T2 ∧ T2.rows = 2 ∧ T2.cols = 3 ∧
        ∀ r c, MainPy.stored T2 r c =
          MainPy.stored ⟨[(0, [(1, 7)])], 2, 3, 1⟩ r c) :=
  ⟨by decide, C6_transpose_involution _ (by decide)⟩

/-- C7 (amended): in the nested-dictionary implementation, adding the
all-zero matrix returns a matrix with the same dimensions and exactly the
stored entries of A, and `A.subtract(A)` returns a truly empty matrix of A's
shape.  In the pair-keyed implementation, adding the zero matrix reproduces
`A.data` exactly, but `A.subtract(A)` keeps every position stored in A as an
explicit entry with value 0 — all positions read as zero, yet the storage is
not empty (see the counterexample). -/
theorem C7_identities_amended (A : MainPy.SparseMatrix)
    (P : PairM.SparseMatrix) (hwA : MainPy.wf A) (hP : PairM.entriesOk P) :
    (∃ C, MainPy.add A (MainPy.mk A.rows A.cols) = .ok C ∧
      C.rows = A.rows ∧ C.cols = A.cols ∧
      ∀ r c, MainPy.stored C r c = MainPy.stored A r c) ∧
    (∃ D, MainPy.subtract A A = .ok D ∧ D.rows = A.rows ∧ D.cols = A.cols ∧
      D.data = []) ∧
    PairM.add P ⟨P.rows, P.cols, []⟩ = .ok ⟨P.rows, P.cols, P.data⟩ ∧
    (∃ D2, PairM.subtract P P = .ok D2 ∧
      D2.data = P.data.map (fun e => (e.1, (0 : Int))) ∧
      ∀ r c, PairM.inBounds P r c → PairM.get_element D2 r c = .ok 0) := by
  refine ⟨?_, ?_, ?_, ?_⟩
  · obtain ⟨C, hrun, hwC, hr, hc, hget⟩ :=
      MainPy.elementwise_spec (fun x y => x + y) hwA
        (MainPy.wf_mk A.rows A.cols) rfl rfl (fun x => add_zero x)
    refine ⟨C, hrun, hr, hc, ?_⟩
    refine MainPy.stored_eq_of_get_eq hwC hwA ?_
    intro r c
    rw [hget r c]
    have hz : MainPy.get_element (MainPy.mk A.rows A.cols) r c = 0 := by
      rw [MainPy.get_eq_stored, MainPy.stored_mk]
      rfl
    rw [hz, add_zero]
  · obtain ⟨D, hrun, hwD, hr, hc, hget⟩ :=
      MainPy.elementwise_spec (fun x y => x - y) hwA hwA rfl rfl
        (fun x => sub_zero x)
    refine ⟨D, hrun, hr, hc, ?_⟩
    apply MainPy.data_nil_of_stored_none hwD
    intro r c
    cases hs : MainPy.stored D r c with
    | none => rfl
    | some v =>
      exfalso
      have hv := (MainPy.stored_some hwD hs).2
      have hg : MainPy.get_element D r c = v := by
        rw [MainPy.get_eq_stored, hs]
        rfl
      rw [hget r c, sub_self] at hg
      exact hv hg.symm
  · unfold PairM.add
    rw [if_neg (by simp)]
    rw [PairM.addLoop_zero P.rows P.cols P.data ⟨P.rows, P.cols, []⟩
      (fun e he => hP.2 e he) hP.1 (fun e _ => rfl)]
    simp
  · unfold PairM.subtract
    rw [if_neg (by simp)]
    rw [PairM.subLoop_self hP.1 hP P.data ⟨P.rows, P.cols, []⟩
      (fun e he => he) hP.1 (fun e _ => rfl)]
    refine ⟨⟨P.rows, P.cols, [] ++ P.data.map (fun e => (e.1, (0 : Int)))⟩,
      rfl, by simp, ?_⟩
    intro r c hb
    have hb2 : PairM.inBounds
        (⟨P.rows, P.cols, [] ++ P.data.map (fun e => (e.1, (0 : Int)))⟩ :
          PairM.SparseMatrix) r c := hb
    rw [PairM.get_inb hb2]
    unfold PairM.getRaw
    simp only [List.nil_append]
    rw [PairM.getD_map_zero]

/-- C7 witness: a 1×2 matrix with one entry in each implementation. -/
theorem C7_witness :
    MainPy.wf ⟨[(0, [(1, 6)])], 1, 2, 1⟩ ∧
    PairM.entriesOk ⟨1, 2, [((0, 1), 6)]⟩ ∧
    ((∃ C, MainPy.add ⟨[(0, [(1, 6)])], 1, 2, 1⟩ (MainPy.mk 1 2) = .ok C ∧
      C.rows = 1 ∧ C.cols = 2 ∧
      ∀ r c, MainPy.stored C r c =
        MainPy.stored ⟨[(0, [(1, 6)])], 1, 2, 1⟩ r c) ∧
    (∃ D, MainPy.subtract ⟨[(0, [(1, 6)])], 1, 2, 1⟩
        ⟨[(0, [(1, 6)])], 1, 2, 1⟩ = .ok D ∧
      D.rows = 1 ∧ D.cols = 2 ∧ D.data = []) ∧
    PairM.add ⟨1, 2, [((0, 1), 6)]⟩ ⟨1, 2, []⟩ =
      .ok ⟨1, 2, [((0, 1), 6)]⟩ ∧
    (∃ D2, PairM.subtract ⟨1, 2, [((0, 1), 6)]⟩ ⟨1, 2, [((0, 1), 6)]⟩ =
        .ok D2 ∧
      D2.data = [((0, 1), (0 : Int))] ∧
      ∀ r c, PairM.inBounds (⟨1, 2, [((0, 1), 6)]⟩ : PairM.SparseMatrix) r c →
        PairM.get_element D2 r c = .ok 0)) :=
  ⟨by decide, by decide, C7_identities_amended _ _ (by decide) (by decide)⟩

/-- C7 counterexample: `A.subtract(A)` in the pair-keyed implementation
returns a matrix whose storage still contains the position (0, 0), bound to
the value 0 — not an empty matrix as the claim states. -/
theorem C7_cex_pair_subtract_stores_zero :
    PairM.subtract ⟨1, 1, [((0, 0), 1)]⟩ ⟨1, 1, [((0, 0), 1)]⟩ =
      .ok ⟨1, 1, [((0, 0), 0)]⟩ ∧
    (⟨1, 1, [((0, 0), 0)]⟩ : PairM.SparseMatrix).data ≠ [] :=
  ⟨rfl, by decide⟩

/-- C9 (amended): construction never validates dimensions.  Both
implementations record a negative row or column count silently (the only
constructor error is the pair-keyed `ValueError` when neither a file path
nor both dimensions are given); on such a matrix every `set_element`
(nested-dictionary) and every `get_element` (pair-keyed) subsequently
raises an index error, since no index is in bounds. -/
theorem C9_construction_accepts_negative_dims (r c : Int) :
    (MainPy.mk r c).rows = r ∧ (MainPy.mk r c).cols = c ∧
    (MainPy.mk r c).data = [] ∧
    PairM.mkDims (some r) (some c) = .ok ⟨r, c, []⟩ ∧
    (r < 0 → ∀ row col v, MainPy.set_element (MainPy.mk r c) row col v =
      .error .indexOutOfBounds) ∧
    (r < 0 → ∀ row col, PairM.get_element ⟨r, c, []⟩ row col =
      .error (.indexError "Index out of bounds.")) := by
  refine ⟨rfl, rfl, rfl, rfl, ?_, ?_⟩
  · intro hneg row col v
    refine MainPy.set_oob v ?_
    rintro ⟨h1, h2, _, _⟩
    have h3 : (MainPy.mk r c).rows = r := rfl
    rw [h3] at h2
    omega
  · intro hneg row col
    refine PairM.get_oob ?_
    rintro ⟨h1, h2, _, _⟩
    have h3 : (⟨r, c, []⟩ : PairM.SparseMatrix).rows = r := rfl
    rw [h3] at h2
    omega

/-- C9 witness: dimensions (-1, 2). -/
theorem C9_witness :
    ((-1 : Int) < 0) ∧
    (∀ row col v, MainPy.set_element (MainPy.mk (-1) 2) row col v =
      .error .indexOutOfBounds) ∧
    (∀ row col, PairM.get_element ⟨-1, 2, []⟩ row col =
      .error (.indexError "Index out of bounds.")) :=
  ⟨by decide,
    (C9_construction_accepts_negative_dims (-1) 2).2.2.2.2.1 (by decide),
    (C9_construction_accepts_negative_dims (-1) 2).2.2.2.2.2 (by decide)⟩

/-- C9 counterexample: constructing with row count -1 succeeds in both
implementations and records the negative dimension, instead of failing with
an error as the claim states. -/
theorem C9_cex_negative_dims_accepted :
    MainPy.mk (-1) 2 = ⟨[], -1, 2, 0⟩ ∧
    (MainPy.mk (-1) 2).rows = -1 ∧
    PairM.mkDims (some (-1)) (some 2) = .ok ⟨-1, 2, []⟩ :=
  ⟨rfl, rfl, rfl⟩

/-- C10: evaluation at the failing input.  Starting from a fresh 2×2 matrix,
`set_element(0,0,1)` followed by `set_element(0,0,2)` leaves `nnz = 2`
although only one position is stored — `set_element` increments `nnz` on
every non-zero write, including overwrites, so `nnz` does not equal the
number of stored positions. -/
theorem C10_nnz_overcounts_on_overwrite :
    MainPy.setList (MainPy.mk 2 2) [(0, 0, 1), (0, 0, 2)] =
      .ok ⟨[(0, [(0, 2)])], 2, 2, 2⟩ ∧
    (⟨[(0, [(0, 2)])], 2, 2, 2⟩ : MainPy.SparseMatrix).nnz = 2 ∧
    MainPy.entryCount [(0, [(0, 2)])] = 1 ∧
    ((2 : Int) ≠ ((1 : Nat) : Int)) :=
  ⟨rfl, rfl, rfl, by decide⟩

end SparseSpec
